import Mathlib

/-!
Verification development for the otrace in-process tracer (`otrace.hpp`).

The definitions below are a shallow embedding of the recorder and snapshot
engine: the category CSV matcher and admission gate, the per-thread event
ring, the emit layer, the flush-time sort, the single-file and rotated
writers, the flush-time synthesis pass, and the heap accounting layer.
Machine integers are modelled as `Nat` (with explicit `% 2^64` where the
code relies on wrap-around), C `double` as `ℚ`, fallible I/O as explicit
outcome parameters, and the thread-local sampling RNG as an oracle value
passed in.  Theorems then settle the specified properties against these
definitions.
-/

set_option maxHeartbeats 1000000

namespace otrace

/-- Mirror of `enum class Phase` in otrace.hpp: Begin, End, Complete,
Instant, Counter, the three metadata variants and the three flow variants. -/
inductive Phase where
  | B | E | X | I | C
  | MThreadName | MProcessName | MThreadSortIndex
  | FlowStart | FlowStep | FlowEnd
deriving DecidableEq

/-- Mirror of `ArgKind`/`Arg`: an argument value is a number (C `double`,
modelled as `ℚ`) or a bounded string.  Slots of kind `None` never occur
among the first `argc` arguments, so they are not modelled. -/
inductive ArgVal where
  | number (v : ℚ)
  | str (s : String)
deriving DecidableEq

/-- A key/value argument pair. -/
abbrev Arg := String × ArgVal

/-- `OTRACE_MAX_ARGS` default. -/
def MAX_ARGS : Nat := 4

/-- Model of `snprintf(dst, n+1, "%s", src)`: keep at most `n` characters. -/
def truncStr (n : Nat) (s : String) : String := String.mk (s.data.take n)

/-- Characters skipped by the separator loop in `csv_has`
(`while (*p==',' || *p==' ' || *p=='\t') ++p;`). -/
def isCsvSep (c : Char) : Bool := c == ',' || c == ' ' || c == '\t'

/-- The scanning loop of `csv_has`: skip separators, read a token up to the
next comma, compare it with `key` (`n==k && strncmp(s,key,k)==0`), and
continue after the comma.  The loop consumes at least one character per
iteration, so a fuel of the input length is enough; the fuel argument only
makes the recursion structural. -/
def csvHasAux (key : List Char) : Nat → List Char → Bool
  | _, [] => false
  | 0, _ :: _ => false
  | fuel + 1, c :: cs =>
    if isCsvSep c then csvHasAux key fuel cs
    else
      let tok := c :: cs.takeWhile (fun x => !(x == ','))
      let rest := cs.dropWhile (fun x => !(x == ','))
      if tok = key then true
      else csvHasAux key fuel rest

/-- Model of `csv_has(csv, key)`: false when either string is empty,
otherwise run the token scan. -/
def csv_has (csv key : String) : Bool :=
  if csv.data = [] ∨ key.data = [] then false
  else csvHasAux key.data csv.data.length csv.data

/-- The admission-gate configuration held in the `Registry`: enabled flag,
keep probability, allow/deny CSVs and the optional user predicate. -/
structure GateCfg where
  enabled : Bool
  sample_keep : ℚ
  allow_cats : String
  deny_cats : String
  filter : Option (String → String → Bool)

/-- Model of `should_emit(name, cat)`.  The thread-local xorshift draw
`u ∈ [0,1)` is passed as an oracle; a null `name`/`cat` pointer is `none`
and is replaced by `""` exactly where the code does (`cat ? cat : ""`). -/
def should_emit (cfg : GateCfg) (u : ℚ) (name cat : Option String) : Bool :=
  if !cfg.enabled then false
  else if cfg.sample_keep < 1 ∧ u > cfg.sample_keep then false
  else if !cfg.allow_cats.isEmpty ∧ !(csv_has cfg.allow_cats (cat.getD "")) then false
  else if !cfg.deny_cats.isEmpty ∧ csv_has cfg.deny_cats (cat.getD "") then false
  else
    match cfg.filter with
    | some f => f (name.getD "") (cat.getD "")
    | none => true

/-- A committed ring slot: the per-thread sequence stamped by `append`, the
color hint consumed from the pending field, and the payload written by the
emit layer.  A slot whose commit flag is still 0 is `none` in the ring. -/
structure Slot (α : Type) where
  seq : Nat
  cname : String
  payload : α
deriving DecidableEq

/-- Model of `ThreadBuffer`: fixed-capacity ring of slots, write head,
wrapped flag, per-thread sequence counter, thread name / sort index, and
the one-shot pending color hint. -/
structure TB (α : Type) where
  tid_v : Nat
  seq_ctr : Nat
  thread_name : String
  thread_sort_index : Int
  buf : List (Option (Slot α))
  cap : Nat
  head : Nat
  wrapped : Bool
  pending_cname : String
deriving DecidableEq

/-- A freshly constructed `ThreadBuffer(capacity)`: all slots uncommitted,
head 0, not wrapped, sequence counter 0, empty name and pending color. -/
def freshTB (α : Type) (cap : Nat) (tid : Nat := 0) : TB α :=
  { tid_v := tid, seq_ctr := 0, thread_name := "", thread_sort_index := 0,
    buf := List.replicate cap none, cap := cap, head := 0, wrapped := false,
    pending_cname := "" }

/-- Model of `ThreadBuffer::append` followed by `commit`: take the slot at
`head`, advance `head` modulo `cap` latching `wrapped`, bump the sequence
counter, move the pending color hint into the slot and clear it, and store
the payload with the commit flag set. -/
def appendTB {α : Type} (tb : TB α) (a : α) : TB α :=
  let idx := tb.head
  let head1 := tb.head + 1
  let head2 := if tb.cap ≤ head1 then 0 else head1
  let wrapped2 := if tb.cap ≤ head1 then true else tb.wrapped
  let seq2 := tb.seq_ctr + 1
  { tb with
    head := head2, wrapped := wrapped2, seq_ctr := seq2,
    pending_cname := "",
    buf := tb.buf.set idx (some ⟨seq2, tb.pending_cname, a⟩) }

/-- Append a whole list of payloads in order. -/
def appendAll {α : Type} (tb : TB α) (L : List α) : TB α := L.foldl appendTB tb

/-- Model of the per-buffer loop of `collect_all`: the committed subrange is
`[0, head)` when not wrapped and `C` entries starting at `head` when
wrapped; indexing is reduced by `cap` when it overflows, and slots whose
commit flag is unset are skipped. -/
def collectTB {α : Type} (tb : TB α) : List (Slot α) :=
  let count := if tb.wrapped then tb.cap else tb.head
  let start := if tb.wrapped then tb.head else 0
  (List.range count).filterMap (fun i =>
    let idx0 := start + i
    let idx := if tb.cap ≤ idx0 then idx0 - tb.cap else idx0
    tb.buf.getD idx none)

/-- The payload the emit layer writes into a reserved slot (the fields set
by `fill_common` and the per-phase extras). -/
structure RecCore where
  ts_us : Nat
  dur_us : Nat
  flow_id : Nat
  pid : Nat
  tid : Nat
  ph : Phase
  name : String
  cat : String
  args : List Arg
deriving DecidableEq

/-- Ambient state an emitter reads: the gate configuration, the RNG oracle,
the current timestamp and the (possibly fork-refreshed) pid. -/
structure EmitCtx where
  cfg : GateCfg
  u : ℚ
  now : Nat
  pid : Nat

/-- Model of `fill_common`: timestamp, pid, tid, phase, and the truncated
name/category (null pointers become empty strings). -/
def fill_common (ctx : EmitCtx) (tb : TB RecCore) (ph : Phase)
    (name cat : Option String) : RecCore :=
  { ts_us := ctx.now, dur_us := 0, flow_id := 0, pid := ctx.pid,
    tid := tb.tid_v, ph := ph,
    name := truncStr 63 (name.getD ""), cat := truncStr 31 (cat.getD ""),
    args := [] }

/-- Model of `arg_number`: skip on a null key or a full argument array,
otherwise push a numeric argument with a truncated key. -/
def arg_number (args : List Arg) (key : Option String) (v : ℚ) : List Arg :=
  match key with
  | none => args
  | some k =>
      if MAX_ARGS ≤ args.length then args
      else args ++ [(truncStr 31 k, ArgVal.number v)]

/-- Model of `arg_string`: skip on a null key or value or a full argument
array, otherwise push a (truncated) string argument. -/
def arg_string (args : List Arg) (key : Option String) (s : Option String) :
    List Arg :=
  match key, s with
  | some k, some v =>
      if MAX_ARGS ≤ args.length then args
      else args ++ [(truncStr 31 k, ArgVal.str (truncStr 63 v))]
  | _, _ => args

/-- Model of `emit_begin`: gate, enabled check, reserve, fill, commit. -/
def emit_begin (ctx : EmitCtx) (name cat : Option String) (tb : TB RecCore) :
    TB RecCore :=
  if should_emit ctx.cfg ctx.u name cat then
    if ctx.cfg.enabled then appendTB tb (fill_common ctx tb Phase.B name cat)
    else tb
  else tb

/-- Model of `emit_end`. -/
def emit_end (ctx : EmitCtx) (name cat : Option String) (tb : TB RecCore) :
    TB RecCore :=
  if should_emit ctx.cfg ctx.u name cat then
    if ctx.cfg.enabled then appendTB tb (fill_common ctx tb Phase.E name cat)
    else tb
  else tb

/-- Model of `emit_instant` (no arguments). -/
def emit_instant (ctx : EmitCtx) (name cat : Option String) (tb : TB RecCore) :
    TB RecCore :=
  if should_emit ctx.cfg ctx.u name cat then
    if ctx.cfg.enabled then appendTB tb (fill_common ctx tb Phase.I name cat)
    else tb
  else tb

/-- Model of `emit_instant_kv` (single numeric key/value). -/
def emit_instant_kv (ctx : EmitCtx) (name : Option String) (key : Option String)
    (val : ℚ) (cat : Option String) (tb : TB RecCore) : TB RecCore :=
  if should_emit ctx.cfg ctx.u name cat then
    if ctx.cfg.enabled then
      let r := fill_common ctx tb Phase.I name cat
      appendTB tb { r with args := arg_number r.args key val }
    else tb
  else tb

/-- Model of the one-pair `emit_instant_kvs` overload (string value). -/
def emit_instant_kvs1 (ctx : EmitCtx) (name cat : Option String)
    (key value : Option String) (tb : TB RecCore) : TB RecCore :=
  if should_emit ctx.cfg ctx.u name cat then
    if ctx.cfg.enabled then
      let r := fill_common ctx tb Phase.I name cat
      appendTB tb { r with args := arg_string r.args key value }
    else tb
  else tb

/-- Model of `emit_counter_n`: numeric series from the first
`min n MAX_ARGS` key/value pairs; when no pairs are supplied the event
name becomes the first series key with value 0. -/
def emit_counter_n (ctx : EmitCtx) (name cat : Option String)
    (kvs : List (Option String × ℚ)) (tb : TB RecCore) : TB RecCore :=
  if should_emit ctx.cfg ctx.u name cat then
    if ctx.cfg.enabled then
      let r := fill_common ctx tb Phase.C name cat
      let args1 := (kvs.take MAX_ARGS).foldl (fun a kv => arg_number a kv.1 kv.2) r.args
      let args2 := if kvs.length = 0 then arg_number args1 name 0 else args1
      appendTB tb { r with args := args2 }
    else tb
  else tb

/-- Model of `emit_complete`. -/
def emit_complete (ctx : EmitCtx) (name : Option String) (dur_us : Nat)
    (cat : Option String) (tb : TB RecCore) : TB RecCore :=
  if should_emit ctx.cfg ctx.u name cat then
    if ctx.cfg.enabled then
      let r := fill_common ctx tb Phase.X name cat
      appendTB tb { r with dur_us := dur_us }
    else tb
  else tb

/-- Model of `emit_complete_kv`. -/
def emit_complete_kv (ctx : EmitCtx) (name : Option String) (dur_us : Nat)
    (key : Option String) (val : ℚ) (cat : Option String) (tb : TB RecCore) :
    TB RecCore :=
  if should_emit ctx.cfg ctx.u name cat then
    if ctx.cfg.enabled then
      let r := fill_common ctx tb Phase.X name cat
      appendTB tb { r with dur_us := dur_us, args := arg_number r.args key val }
    else tb
  else tb

/-- Model of `emit_flow`: null name/category default to `"flow"` before the
gate is consulted, and the flow id is stored in the slot. -/
def emit_flow (ctx : EmitCtx) (ph : Phase) (id : Nat)
    (name cat : Option String) (tb : TB RecCore) : TB RecCore :=
  let name1 := some (name.getD "flow")
  let cat1 := some (cat.getD "flow")
  if should_emit ctx.cfg ctx.u name1 cat1 then
    if ctx.cfg.enabled then
      let r := fill_common ctx tb ph name1 cat1
      appendTB tb { r with flow_id := id }
    else tb
  else tb

/-- Model of `emit_thread_name`: only the enabled flag is checked; the
thread name is stored in the buffer and a `MThreadName` metadata event with
an empty category is appended. -/
def emit_thread_name (ctx : EmitCtx) (name : Option String) (tb : TB RecCore) :
    TB RecCore :=
  if ctx.cfg.enabled then
    let tb1 := { tb with thread_name := truncStr 63 (name.getD "") }
    appendTB tb1 (fill_common ctx tb1 Phase.MThreadName (some (name.getD "")) (some ""))
  else tb

/-- Model of `emit_thread_sort_index`: only the enabled flag is checked. -/
def emit_thread_sort_index (ctx : EmitCtx) (sort_index : Int) (tb : TB RecCore) :
    TB RecCore :=
  if ctx.cfg.enabled then
    let tb1 := { tb with thread_sort_index := sort_index }
    let r := fill_common ctx tb1 Phase.MThreadSortIndex (some "") (some "")
    appendTB tb1 { r with args := arg_number r.args (some "sort_index") (sort_index : ℚ) }
  else tb

/-- Model of `emit_process_name`: only the enabled flag is checked. -/
def emit_process_name (ctx : EmitCtx) (name : Option String) (tb : TB RecCore) :
    TB RecCore :=
  if ctx.cfg.enabled then
    appendTB tb (fill_common ctx tb Phase.MProcessName (some (name.getD "")) (some ""))
  else tb

/-- The index of the last write that landed in ring slot `s`: the largest
`j < K` with `j % C = s`, if any. -/
def lastHit : Nat → Nat → Nat → Option Nat
  | 0, _, _ => none
  | k + 1, C, s => if k % C = s then some k else lastHit k C s

/-! ### Flush-time snapshot sort (claim C1) -/

/-- Mirror of `CleanEvent`: the copy-friendly event used for sorting and
writing during a flush. -/
structure CleanEvent where
  ts_us : Nat
  dur_us : Nat
  flow_id : Nat
  pid : Nat
  tid : Nat
  seq : Nat
  ph : Phase
  name : String
  cat : String
  cname : String
  args : List Arg
deriving DecidableEq

/-- The comparator passed to the flush sorts: strictly less on the key
`(ts_us, tid, seq)`. -/
def cleanLt (a b : CleanEvent) : Bool :=
  if a.ts_us ≠ b.ts_us then decide (a.ts_us < b.ts_us)
  else if a.tid ≠ b.tid then decide (a.tid < b.tid)
  else decide (a.seq < b.seq)

/-- `a` may legally precede `b` in a list sorted by `cleanLt`. -/
abbrev keyLe (a b : CleanEvent) : Prop := cleanLt b a = false

/-- A list is sorted with respect to the flush comparator. -/
abbrev SortedByKey (l : List CleanEvent) : Prop := l.Pairwise keyLe

/-- The contract `std::sort` gives for the flush sort: the output is some
permutation of the collected events that is sorted by the comparator.  The
relative order of elements with equal `(ts_us, tid, seq)` keys is not
specified by `std::sort`. -/
abbrev SortSpec (input out : List CleanEvent) : Prop :=
  out.Perm input ∧ SortedByKey out

/-- The sort key of an event. -/
def evKey (e : CleanEvent) : Nat × Nat × Nat := (e.ts_us, e.tid, e.seq)

/-- Non-strict lexicographic order on the key `(ts_us, tid, seq)`. -/
abbrev keyOrdered (a b : CleanEvent) : Prop :=
  a.ts_us < b.ts_us ∨
    (a.ts_us = b.ts_us ∧ (a.tid < b.tid ∨ (a.tid = b.tid ∧ a.seq ≤ b.seq)))

/-- Modelled from the spec: a stable sort on the same key.  `insert` places
`x` before the first element not strictly below it, so elements with equal
keys keep their input order. -/
def insertByKey (x : CleanEvent) : List CleanEvent → List CleanEvent
  | [] => [x]
  | y :: ys => if cleanLt y x then y :: insertByKey x ys else x :: y :: ys

/-- Modelled from the spec: stable insertion sort by `(ts_us, tid, seq)`. -/
def stableSortByKey : List CleanEvent → List CleanEvent
  | [] => []
  | x :: xs => insertByKey x (stableSortByKey xs)

/-- A `MThreadName` metadata event as `collect_all` builds it (ts 0, seq 0). -/
def mNameEv : CleanEvent :=
  { ts_us := 0, dur_us := 0, flow_id := 0, pid := 1, tid := 7, seq := 0,
    ph := Phase.MThreadName, name := "worker", cat := "", cname := "", args := [] }

/-- A `MThreadSortIndex` metadata event for the same thread: it carries the
same `(ts, tid, seq)` key `(0, 7, 0)` as `mNameEv`. -/
def mSortEv : CleanEvent :=
  { ts_us := 0, dur_us := 0, flow_id := 0, pid := 1, tid := 7, seq := 0,
    ph := Phase.MThreadSortIndex, name := "", cat := "", cname := "",
    args := [("sort_index", ArgVal.number 3)] }

/-! ### Admission gate theorems (claims C3, C4) -/

/-- The token list produced by the `csv_has` scan: separators (commas,
spaces, tabs) are skipped before each token, a token runs to the next
comma.  Fueled like `csvHasAux`. -/
def csvTokensAux : Nat → List Char → List (List Char)
  | _, [] => []
  | 0, _ :: _ => []
  | fuel + 1, c :: cs =>
    if isCsvSep c then csvTokensAux fuel cs
    else (c :: cs.takeWhile (fun x => !(x == ','))) ::
      csvTokensAux fuel (cs.dropWhile (fun x => !(x == ',')))

/-- Gate configuration with an active denylist containing "dbg". -/
def cfgDeny : GateCfg :=
  { enabled := true, sample_keep := 1, allow_cats := "", deny_cats := "dbg",
    filter := none }

/-- Emit context for `cfgDeny`. -/
def ctxDeny : EmitCtx := { cfg := cfgDeny, u := 0, now := 0, pid := 1 }

/-- Gate configuration with a non-empty allowlist "io". -/
def cfgAllowIO : GateCfg :=
  { enabled := true, sample_keep := 1, allow_cats := "io", deny_cats := "",
    filter := none }

/-- Emit context for `cfgAllowIO`. -/
def ctxAllowIO : EmitCtx := { cfg := cfgAllowIO, u := 0, now := 0, pid := 1 }

/-! ### Writer, rotation and flush models (claims C5, C6, C10) -/

/-- Model of `ends_with(s, suff)`. -/
def ends_with (s suff : String) : Bool :=
  decide (suff.data.length ≤ s.data.length) &&
    (s.data.drop (s.data.length - suff.data.length) == suff.data)

/-- The printf flag characters `set_output_pattern` skips
(`strchr("0-+ #", *p)`). -/
def isFmtFlag (c : Char) : Bool :=
  c == '0' || c == '-' || c == '+' || c == ' ' || c == '#'

/-- Model of the placeholder scan in `set_output_pattern`: find a `%`,
skip flags and digits, and report whether a `d`/`u` conversion follows.
Fuel makes the recursion structural; the scan consumes at least one
character per step. -/
def scanHasIndexAux : Nat → List Char → Bool
  | _, [] => false
  | 0, _ :: _ => false
  | fuel + 1, c :: cs =>
    if c = '%' then
      match (cs.dropWhile isFmtFlag).dropWhile Char.isDigit with
      | [] => false
      | d :: rest =>
        if d = 'd' ∨ d = 'u' then true else scanHasIndexAux fuel rest
    else scanHasIndexAux fuel cs

/-- Numeric value of a digit string. -/
def digitsToNat (ds : List Char) : Nat :=
  ds.foldl (fun a c => a * 10 + (c.toNat - 48)) 0

/-- Right-justified decimal rendering with optional zero padding, as
`snprintf` produces for `%0<w>u` / `%<w>u`. -/
def padNum (zero : Bool) (width : Nat) (n : Nat) : String :=
  let s := toString n
  if s.length < width then
    String.mk (List.replicate (width - s.length) (if zero then '0' else ' ')) ++ s
  else s

/-- Model of `snprintf(out, pattern, idx)` for patterns within the
documented contract (at most one `%<flags><width>[du]` placeholder): the
first placeholder is replaced by the index, zero-padded when the `0` flag
is present.  Standard-library formatting, modelled only as far as the
rotation writer relies on it. -/
def substIndexAux : Nat → List Char → Nat → List Char
  | _, [], _ => []
  | 0, l, _ => l
  | fuel + 1, c :: cs, idx =>
    if c = '%' then
      let flags := cs.takeWhile isFmtFlag
      let afterFlags := cs.dropWhile isFmtFlag
      let widthDigits := afterFlags.takeWhile Char.isDigit
      match afterFlags.dropWhile Char.isDigit with
      | [] => c :: cs
      | d :: rest =>
        if d = 'd' ∨ d = 'u' then
          (padNum (flags.contains '0') (digitsToNat widthDigits) idx).data ++ rest
        else c :: substIndexAux fuel cs idx
    else c :: substIndexAux fuel cs idx

/-- Model of `format_indexed`: substitute the placeholder when the pattern
has one, else append `-%06u`. -/
def format_indexed (pattern : String) (idx : Nat) (has_index : Bool) : String :=
  if pattern.data = [] then ""
  else if has_index then String.mk (substIndexAux pattern.data.length pattern.data idx)
  else pattern ++ "-" ++ padNum true 6 idx

/-- Model of `make_tmp_path`. -/
def make_tmp_path (final : String) : String := final ++ ".tmp"

/-- The rotation state inside the `Registry`. -/
structure RotCfg where
  pattern : String
  max_files : Nat
  max_size_mb : Nat
  rot_index : Nat
  pattern_has_index : Bool
  pattern_use_gzip : Bool
deriving DecidableEq

/-- Model of `set_output_pattern` (`gzipAvailable` reflects whether a zlib
or miniz backend is compiled in). -/
def set_output_pattern (gzipAvailable : Bool) (pattern : Option String)
    (max_size_mb max_files : Nat) : RotCfg :=
  match pattern with
  | none => ⟨"", 0, 0, 0, false, false⟩
  | some p =>
    if p.data = [] then ⟨"", 0, 0, 0, false, false⟩
    else
      { pattern := p,
        max_files := if max_files = 0 then 1 else max_files,
        max_size_mb := max_size_mb,
        rot_index := 0,
        pattern_has_index := scanHasIndexAux p.data.length p.data,
        pattern_use_gzip := ends_with p ".gz" && gzipAvailable }

/-- The final path `write_rotated_trace` derives from the pattern and the
current rotation index. -/
def rotatedFinalPath (r : RotCfg) : String :=
  format_indexed r.pattern r.rot_index r.pattern_has_index

/-- The same path with a dangling `.gz` stripped when no gzip backend is
active. -/
def rotatedAdjustedPath (r : RotCfg) : String :=
  let fp := rotatedFinalPath r
  if ends_with fp ".gz" && !r.pattern_use_gzip then
    String.mk (fp.data.take (fp.data.length - 3))
  else fp

/-- The paths `write_rotated_trace` opens for writing, in order: always the
staging `.tmp`; the final path itself when gzip streams into it; the
adjusted final when the rename fails and the copy fallback runs. -/
def rotatedOpens (r : RotCfg) (renameOk : Bool) : List String :=
  let fp := rotatedFinalPath r
  let ap := rotatedAdjustedPath r
  let tmp := make_tmp_path ap
  if r.pattern_use_gzip && ends_with fp ".gz" then [tmp, fp]
  else if renameOk then [tmp] else [tmp, ap]

/-- The rotation-index bump at the end of `write_rotated_trace`. -/
def rotatedNext (r : RotCfg) : RotCfg :=
  { r with rot_index := (r.rot_index + 1) % (if r.max_files = 0 then 1 else r.max_files) }

/-- The registry state `flush_file` touches. -/
structure Reg2 where
  enabled : Bool
  default_path : String
  rot : RotCfg
deriving DecidableEq

/-- What one `flush_file` call does, as far as the enabled flag and the
file system are concerned. -/
structure FlushOut where
  duringEnabled : Bool
  finalReg : Reg2
  opens : List String
  usedRotated : Bool
  wrote : Bool
deriving DecidableEq

/-- Model of `flush_file(path)`: exchange the enabled flag to false keeping
the previous value; write through the rotated writer when a pattern is set
(ignoring `path`), else open `path` or the default path; restore the flag
on every return path.  `openOk` is the outcome of `fopen` on the single
file path, `renameOk` of the rename inside the rotated writer. -/
def flush_file (r : Reg2) (path : Option String) (openOk renameOk : Bool) :
    FlushOut :=
  let prev := r.enabled
  let r1 : Reg2 := { r with enabled := false }
  if r.rot.pattern.data ≠ [] then
    { duringEnabled := r1.enabled,
      finalReg := { r1 with enabled := prev, rot := rotatedNext r1.rot },
      opens := rotatedOpens r1.rot renameOk,
      usedRotated := true, wrote := true }
  else
    let out_path := path.getD r.default_path
    if openOk then
      { duringEnabled := r1.enabled, finalReg := { r1 with enabled := prev },
        opens := [out_path], usedRotated := false, wrote := true }
    else
      { duringEnabled := r1.enabled, finalReg := { r1 with enabled := prev },
        opens := [out_path], usedRotated := false, wrote := false }

/-- A registry with rotation pattern "run-%03u.json", three files. -/
def regRot : Reg2 :=
  { enabled := true, default_path := "trace.json",
    rot := set_output_pattern false (some "run-%03u.json") 0 3 }

/-! ### Rotated writer file-system trace (claim C6) -/

/-- File contents as a sequence of abstract chunks. -/
abbrev Data := List Nat

/-- Externally observable state of the two paths the rotated writer
touches: the final path and the staging `<final>.tmp`. -/
structure Fs where
  final : Option Data
  tmp : Option Data
deriving DecidableEq

/-- States as chunks are appended to the open staging file. -/
def tmpWriteStates (fin0 : Option Data) (json : Data) : List Fs :=
  (List.range json.length).map (fun k => ⟨fin0, some (json.take (k + 1))⟩)

/-- States as chunks are appended to the open final path. -/
def finalWriteStates (tmp0 : Option Data) (out : Data) : List Fs :=
  (List.range out.length).map (fun k => ⟨some (out.take (k + 1)), tmp0⟩)

/-- The sequence of externally observable file-system states during
`write_rotated_trace`, starting from final = `prev`, no staging file.
`json` is the chunk sequence of the JSON written to the staging file,
`gzc` the chunk sequence the gzip backend emits, `gz` whether the gzip
branch runs, `gzOk` / `renameOk` the outcomes of compression and rename.
The gzip branch mirrors `compress_file_to_gzip`: it opens the final path
itself for writing (truncating it), streams into it, removes it on
failure, and the staging file is removed either way; the non-gzip branch
removes the final path and renames the staging file onto it, falling back
to an open-and-copy of the final path when the rename fails. -/
def rotatedTrace (gz gzOk renameOk : Bool) (prev : Option Data)
    (json gzc : Data) : List Fs :=
  (⟨prev, none⟩ : Fs) :: (⟨prev, some []⟩ : Fs) :: tmpWriteStates prev json ++
    (if gz then
      [(⟨some [], some json⟩ : Fs)] ++ finalWriteStates (some json) gzc ++
        (if gzOk then [⟨some gzc, some json⟩, ⟨some gzc, none⟩]
         else [⟨none, some json⟩, ⟨none, none⟩])
     else
      [(⟨none, some json⟩ : Fs)] ++
        (if renameOk then [⟨some json, none⟩]
         else
          [(⟨some [], some json⟩ : Fs)] ++ finalWriteStates (some json) json ++
            [⟨some json, some json⟩, ⟨some json, none⟩]))

/-! ### Sampling clamp and environment read (claim C7) -/

/-- Digit-run parser: value, digit count, rest. -/
def parseDigitsAux : List Char → Nat → Nat → Nat × Nat × List Char
  | [], acc, cnt => (acc, cnt, [])
  | c :: cs, acc, cnt =>
    if c.isDigit then parseDigitsAux cs (acc * 10 + (c.toNat - 48)) (cnt + 1)
    else (acc, cnt, c :: cs)

/-- Ten to an integer power, executably. -/
def pow10 (e : Int) : ℚ :=
  if 0 ≤ e then ((10 : ℚ) ^ e.toNat) else 1 / ((10 : ℚ) ^ (-e).toNat)

/-- Modelled from the C standard library: `atof` on decimal inputs —
optional leading whitespace and sign, integer digits, optional fraction,
optional decimal exponent.  This routine is not repository code; it is
modelled here because `AtEnvInit` stores its result directly. -/
def atofQ (s : String) : ℚ :=
  let l1 := s.data.dropWhile (fun c =>
    c == ' ' || c == '\t' || c == '\n' || c == '\r')
  let signed : ℚ × List Char :=
    match l1 with
    | '-' :: r => (-1, r)
    | '+' :: r => (1, r)
    | r => (1, r)
  let ipRes := parseDigitsAux signed.2 0 0
  let fpRes : Nat × Nat × List Char :=
    match ipRes.2.2 with
    | '.' :: r => parseDigitsAux r 0 0
    | r => (0, 0, r)
  let ex : Int :=
    match fpRes.2.2 with
    | 'e' :: r | 'E' :: r =>
      (match r with
       | '-' :: r2 => -((parseDigitsAux r2 0 0).1 : Int)
       | '+' :: r2 => ((parseDigitsAux r2 0 0).1 : Int)
       | r2 => ((parseDigitsAux r2 0 0).1 : Int))
    | _ => 0
  signed.1 * ((ipRes.1 : ℚ) + (fpRes.1 : ℚ) / ((10 : ℚ) ^ fpRes.2.1)) * pow10 ex

/-- Model of `otrace_set_sampling`: clamp below 0 to 0, then above 1 to 1. -/
def otrace_set_sampling (keep : ℚ) : ℚ :=
  let k1 := if keep < 0 then 0 else keep
  if k1 > 1 then 1 else k1

/-- The registry fields the one-time environment read touches. -/
structure EnvState where
  enabled : Bool
  sample_keep : ℚ
deriving DecidableEq

/-- Model of the `AtEnvInit` constructor: OTRACE_DISABLE clears the enabled
flag, OTRACE_ENABLE (winning) sets it, and OTRACE_SAMPLE stores `atof(s)`
into `sample_keep` — with no clamping. -/
def at_env_init (st : EnvState) (disableV enableV sampleV : Option String) :
    EnvState :=
  let st1 := match disableV with
    | some _ => { st with enabled := false }
    | none => st
  let st2 := match enableV with
    | some _ => { st1 with enabled := true }
    | none => st1
  match sampleV with
  | some s => { st2 with sample_keep := atofQ s }
  | none => st2

/-! ### Heap accounting layer (claim C9) -/

/-- 2^64, the modulus of the `uint64`/`size_t` counters. -/
def W64 : Nat := 2 ^ 64

/-- Wrapping `uint64` subtraction. -/
def sub64 (a b : Nat) : Nat := (a + (W64 - b % W64)) % W64

/-- Mirror of `heap::AllocEntry`. -/
structure AllocEntry where
  size : Nat
  stack_hash : Nat
  timestamp : Nat
deriving DecidableEq

/-- Mirror of `heap::CallsiteStats`. -/
structure CallsiteStats where
  total_bytes : Nat
  alloc_count : Nat
  live_bytes : Nat
  live_count : Nat
  sample_stack : String
deriving DecidableEq

/-- Lookup in an association list modelling `std::unordered_map`. -/
def mapFind {β : Type} : List (Nat × β) → Nat → Option β
  | [], _ => none
  | kv :: t, k => if kv.1 = k then some kv.2 else mapFind t k

/-- Insert-or-assign (`m[k] = v`). -/
def mapSet {β : Type} (m : List (Nat × β)) (k : Nat) (v : β) : List (Nat × β) :=
  if (mapFind m k).isSome then
    m.map (fun kv => if kv.1 = k then (k, v) else kv)
  else m ++ [(k, v)]

/-- Erase (`m.erase(k)`). -/
def mapErase {β : Type} (m : List (Nat × β)) (k : Nat) : List (Nat × β) :=
  m.filter (fun kv => !(kv.1 == k))

/-- Mirror of `heap::State`: the global counters, the enabled flag and
sampling rate, the 64 shard maps, the callsite aggregates, and the
throttling timestamp of the periodic live-bytes counter. -/
structure HeapState where
  live_bytes : Nat
  total_allocations : Nat
  total_frees : Nat
  enabled : Bool
  sample_rate : ℚ
  shards : List (List (Nat × AllocEntry))
  callsites : List (Nat × CallsiteStats)
  last_counter_update : Nat
deriving DecidableEq

/-- The initial `heap::State` (shards empty, counters zero). -/
def heapInit (enabled : Bool) (rate : ℚ) : HeapState :=
  { live_bytes := 0, total_allocations := 0, total_frees := 0,
    enabled := enabled, sample_rate := rate,
    shards := List.replicate 64 [], callsites := [],
    last_counter_update := 0 }

/-- Model of `heap::record_alloc(ptr, size)`.  `in_tracer` is
`otrace::tls_in_tracer`, `in_hook` says the `HeapHookGuard` found the
hook flag already set, `u` is the thread-local xorshift draw, and `cap` is
the result of a successful stack capture with depth > 2 — the hash and the
formatted text — or `none` when capture produced nothing.  The throttled
`heap_live_bytes` counter emission goes to the event ring, not the heap
state; only its CAS on `last_counter_update` is modelled here. -/
def record_alloc (st : HeapState) (p size : Nat) (in_tracer in_hook : Bool)
    (u : ℚ) (cap : Option (Nat × String)) (now : Nat) : HeapState :=
  if p = 0 then st
  else if in_tracer then st
  else if in_hook then st
  else if !st.enabled then st
  else
    let st1 := { st with live_bytes := (st.live_bytes + size) % W64,
                         total_allocations := (st.total_allocations + 1) % W64 }
    let hs : Nat × String :=
      if (0 : ℚ) < st1.sample_rate ∧ u < st1.sample_rate then
        match cap with
        | some hv => hv
        | none => (0, "")
      else (0, "")
    let sIdx := p % 64
    let newShard := mapSet (st1.shards.getD sIdx []) p ⟨size, hs.1, now⟩
    let st2 := { st1 with shards := st1.shards.set sIdx newShard }
    let st3 :=
      if hs.1 ≠ 0 then
        let cur := (mapFind st2.callsites hs.1).getD ⟨0, 0, 0, 0, ""⟩
        let newCs : CallsiteStats :=
          { total_bytes := (cur.total_bytes + size) % W64,
            alloc_count := (cur.alloc_count + 1) % W64,
            live_bytes := (cur.live_bytes + size) % W64,
            live_count := (cur.live_count + 1) % W64,
            sample_stack := if cur.sample_stack = "" ∧ hs.2 ≠ "" then hs.2
                            else cur.sample_stack }
        { st2 with callsites := mapSet st2.callsites hs.1 newCs }
      else st2
    if 1000000 ≤ now - st3.last_counter_update then
      { st3 with last_counter_update := now }
    else st3

/-- Model of `heap::record_free(ptr)`. -/
def record_free (st : HeapState) (p : Nat) (in_tracer in_hook : Bool) :
    HeapState :=
  if p = 0 then st
  else if in_tracer then st
  else if in_hook then st
  else if !st.enabled then st
  else
    let sIdx := p % 64
    let shard := st.shards.getD sIdx []
    match mapFind shard p with
    | none => st
    | some entry =>
      let st1 := { st with live_bytes := sub64 st.live_bytes entry.size,
                           total_frees := (st.total_frees + 1) % W64 }
      let st2 :=
        if entry.stack_hash ≠ 0 then
          match mapFind st1.callsites entry.stack_hash with
          | some cs =>
            let newCs := { cs with live_bytes := sub64 cs.live_bytes entry.size,
                                   live_count := sub64 cs.live_count 1 }
            { st1 with callsites := mapSet st1.callsites entry.stack_hash newCs }
          | none => st1
        else st1
      { st2 with shards := st2.shards.set sIdx (mapErase shard p) }

/-! ### Flush-time synthesis (claim C8) -/

/-- Runtime/ build-time configuration of `synthesize_tracks`: the rate
window and the parsed percentile list (`pct_names`/`pct_vals`, up to 8
entries as parsed by the `Registry` constructor). -/
structure SynthCfg where
  rate_window_us : Nat
  pcts : List (String × ℚ)

/-- Generic insertion step for `sortLeB`. -/
def insertLeB {β : Type} (le : β → β → Bool) (x : β) : List β → List β
  | [] => [x]
  | y :: ys => if le y x then y :: insertLeB le x ys else x :: y :: ys

/-- Insertion sort by a boolean relation: one refinement of the `std::sort`
calls inside synthesis (their tie order is unspecified but irrelevant
here) and of ordered `std::map` iteration. -/
def sortLeB {β : Type} (le : β → β → Bool) : List β → List β
  | [] => []
  | x :: xs => insertLeB le x (sortLeB le xs)

/-- Byte-lexicographic string comparison (`std::string` operator<). -/
def strLtB : List Char → List Char → Bool
  | [], [] => false
  | [], _ :: _ => true
  | _ :: _, [] => false
  | a :: as, b :: bs =>
    if a.toNat < b.toNat then true
    else if b.toNat < a.toNat then false
    else strLtB as bs

/-- Keys of a `std::map<std::string, _>` in iteration order. -/
def sortStrings (l : List String) : List String :=
  sortLeB (fun a b => !(strLtB b.data a.data)) l

/-- `last_ts`: the maximum timestamp in the snapshot. -/
def lastTs (l : List CleanEvent) : Nat := l.foldl (fun acc e => max acc e.ts_us) 0

/-- The `emit_counter` lambda of `synthesize_tracks`: a one-series counter
event with category "synth". -/
def synthCounter (ts : Nat) (name key : String) (val : ℚ) (pid tid : Nat)
    (cat : String) : CleanEvent :=
  { ts_us := ts, dur_us := 0, flow_id := 0, pid := pid, tid := tid, seq := 0,
    ph := Phase.C, name := truncStr 63 name, cat := truncStr 31 cat,
    cname := "", args := [(truncStr 31 key, ArgVal.number val)] }

/-- The `while (j < i && fts[j] + W < t) ++j;` sliding-window advance; the
fuel (`i` suffices) only makes the recursion structural. -/
def advanceJ (fts : List Nat) (W t i : Nat) : Nat → Nat → Nat
  | 0, j => j
  | fuel + 1, j =>
    if j < i ∧ fts.getD j 0 + W < t then advanceJ fts W t i fuel (j + 1) else j

/-- One iteration of the FPS loop: advance the window start and emit one
"fps" counter. -/
def fpsStep (fts : List Nat) (W pid : Nat) (st : Nat × List CleanEvent)
    (i : Nat) : Nat × List CleanEvent :=
  let t := fts.getD i 0
  let j := advanceJ fts W t i i st.1
  (j, st.2 ++ [synthCounter t "fps" "fps"
    (((i - j + 1 : Nat) : ℚ) * 1000000 / (W : ℚ)) pid 0 "synth"])

/-- The FPS section of `synthesize_tracks`: frame markers are Instants with
name and category "frame"; no markers, no output. -/
def fpsEvents (inp : List CleanEvent) (cfg : SynthCfg) (pid : Nat) :
    List CleanEvent :=
  let fts := (inp.filter (fun e =>
    decide (e.ph = Phase.I ∧ e.name = "frame" ∧ e.cat = "frame"))).map
    (fun e => e.ts_us)
  if fts.isEmpty then []
  else
    let W := if cfg.rate_window_us = 0 then 500000 else cfg.rate_window_us
    ((List.range fts.length).foldl (fpsStep fts W pid) (0, [])).2

/-- The first argument of a counter event, when numeric (`args[0].kind ==
Number`); `none` for anything that is not a counter with arguments. -/
def counterFirstNum (e : CleanEvent) : Option ℚ :=
  if e.ph = Phase.C ∧ e.args ≠ [] then
    match e.args.head? with
    | some (_, ArgVal.number v) => some v
    | _ => none
  else none

/-- The key set of the `series` map. -/
def counterNames (inp : List CleanEvent) : List String :=
  (inp.filterMap (fun e => (counterFirstNum e).map (fun _ => e.name))).dedup

/-- The `(ts, value)` samples pushed into `series[name]`, in snapshot
order. -/
def counterSamples (inp : List CleanEvent) (name : String) :
    List (Nat × ℚ) :=
  inp.filterMap (fun e =>
    if e.name = name then (counterFirstNum e).map (fun v => (e.ts_us, v))
    else none)

/-- The `rate(<name>)` counters derived from one series: samples sorted by
timestamp, one event per consecutive pair with positive time delta. -/
def rateForSeries (k : String) (pid : Nat) (samples : List (Nat × ℚ)) :
    List CleanEvent :=
  if samples.length < 2 then []
  else
    let v := sortLeB (fun a b => decide (a.1 ≤ b.1)) samples
    (List.range (v.length - 1)).filterMap (fun i0 =>
      let a := v.getD i0 (0, 0)
      let b := v.getD (i0 + 1) (0, 0)
      let dt : ℚ := ((b.1 - a.1 : Nat) : ℚ) / 1000000
      if dt ≤ 0 then none
      else some (synthCounter b.1 ("rate(" ++ k ++ ")") "value"
        ((b.2 - a.2) / dt) pid 0 "synth"))

/-- The counter-derivative section of `synthesize_tracks`. -/
def rateEvents (inp : List CleanEvent) (pid : Nat) : List CleanEvent :=
  (sortStrings (counterNames inp)).flatMap
    (fun k => rateForSeries k pid (counterSamples inp k))

/-- The name of the latency summary instant
(`snprintf(nm, sizeof nm, "latency(%s)", name)`). -/
def latLabel (name : String) : String :=
  truncStr 63 ("latency(" ++ name ++ ")")

/-- The key set of the `lat` map: names of Complete events with a non-empty
name. -/
def completeNames (inp : List CleanEvent) : List String :=
  (inp.filterMap (fun e =>
    if e.ph = Phase.X ∧ e.name ≠ "" then some e.name else none)).dedup

/-- The durations (µs, as `double`) collected for one Complete name, in
snapshot order. -/
def completeDurs (inp : List CleanEvent) (name : String) : List ℚ :=
  inp.filterMap (fun e =>
    if e.ph = Phase.X ∧ e.name ≠ "" ∧ e.name = name then
      some ((e.dur_us : ℚ)) else none)

/-- The same durations sorted ascending (`std::sort`). -/
def sortedDurs (inp : List CleanEvent) (name : String) : List ℚ :=
  sortLeB (fun a b => decide (a ≤ b)) (completeDurs inp name)

/-- The percentile index `floor(q * (n - 1))`. -/
def pctIndex (q : ℚ) (n : Nat) : Nat :=
  (Rat.floor (q * ((n - 1 : Nat) : ℚ))).toNat

/-- The single latency summary instant for one Complete name: emitted at
the maximum timestamp of the trace, category "synth", tid 0, one numeric
argument per configured percentile up to `OTRACE_MAX_ARGS`, each the
duration at index `floor(q*(n-1))` of the ascending sort, in
milliseconds. -/
def latencyEvent (inp : List CleanEvent) (pid : Nat)
    (pcts : List (String × ℚ)) (name : String) : CleanEvent :=
  let v := sortedDurs inp name
  { ts_us := lastTs inp, dur_us := 0, flow_id := 0, pid := pid, tid := 0,
    seq := 0, ph := Phase.I, name := latLabel name,
    cat := truncStr 31 "synth", cname := "",
    args := (pcts.take MAX_ARGS).map (fun pr =>
      (truncStr 31 pr.1,
       ArgVal.number ((v.getD (pctIndex pr.2 v.length) 0) / 1000))) }

/-- The latency section of `synthesize_tracks`: one instant per map key. -/
def latencyEvents (inp : List CleanEvent) (pid : Nat)
    (pcts : List (String × ℚ)) : List CleanEvent :=
  (sortStrings (completeNames inp)).map (latencyEvent inp pid pcts)

/-- Model of `synthesize_tracks`: the FPS counters, then the counter
derivatives, then the latency summaries, in emission order. -/
def synthesize_tracks (inp : List CleanEvent) (cfg : SynthCfg) (pid : Nat) :
    List CleanEvent :=
  fpsEvents inp cfg pid ++ rateEvents inp pid ++
    latencyEvents inp pid cfg.pcts

/-- A concrete Complete event ("job", 5000 µs). -/
def jobEv : CleanEvent :=
  { ts_us := 10, dur_us := 5000, flow_id := 0, pid := 1, tid := 3, seq := 1,
    ph := Phase.X, name := "job", cat := "", cname := "", args := [] }

/-- A five-percentile synthesis configuration (the registry parses up to
eight percentile entries from `OTRACE_SYNTH_PCT_NAMES`). -/
def cfg5 : SynthCfg :=
  { rate_window_us := 500000,
    pcts := [("p10", 1/10), ("p20", 1/5), ("p30", 3/10), ("p40", 2/5),
             ("p50", 1/2)] }

/-! ### Theorems -/

/-- Helper: `dropWhile` never lengthens a list. -/
theorem dropWhile_len_le {β : Type} (p : β → Bool) :
    ∀ l : List β, (l.dropWhile p).length ≤ l.length := by
  intro l
  induction l with
  | nil => simp [List.dropWhile]
  | cons a t ih =>
    by_cases h : p a
    · simp [List.dropWhile, h]; omega
    · simp [List.dropWhile, h]

/-! ### Ring characterization (claim C2 support) -/

theorem getD_cons_succ' {β : Type} (a : β) (l : List β) (n : Nat) (d : β) :
    (a :: l).getD (n + 1) d = l.getD n d := by
  simp [List.getD]

theorem getD_set_self {β : Type} :
    ∀ (l : List β) (i : Nat), i < l.length → ∀ a d : β, (l.set i a).getD i d = a := by
  intro l
  induction l with
  | nil => intro i h; simp at h
  | cons b t ih =>
    intro i h a d
    cases i with
    | zero => simp [List.getD]
    | succ n =>
      simp only [List.set, getD_cons_succ']
      exact ih n (by simp at h; omega) a d

theorem getD_set_ne {β : Type} :
    ∀ (l : List β) (i j : Nat), i ≠ j → ∀ a d : β, (l.set i a).getD j d = l.getD j d := by
  intro l
  induction l with
  | nil => intro i j _ a d; cases i <;> simp [List.getD]
  | cons b t ih =>
    intro i j hne a d
    cases i with
    | zero =>
      cases j with
      | zero => exact absurd rfl hne
      | succ m => simp [List.set, getD_cons_succ']
    | succ n =>
      cases j with
      | zero => simp [List.set, List.getD]
      | succ m =>
        simp only [List.set, getD_cons_succ']
        exact ih n m (by omega) a d

theorem getD_append_len {β : Type} :
    ∀ (L : List β) (x d : β), (L ++ [x]).getD L.length d = x := by
  intro L
  induction L with
  | nil => intro x d; simp [List.getD]
  | cons a t ih =>
    intro x d
    simp only [List.cons_append, List.length_cons, getD_cons_succ']
    exact ih x d

theorem getD_append_lt {β : Type} :
    ∀ (L : List β) (j : Nat), j < L.length → ∀ (x d : β),
      (L ++ [x]).getD j d = L.getD j d := by
  intro L
  induction L with
  | nil => intro j h; simp at h
  | cons a t ih =>
    intro j h x d
    cases j with
    | zero => simp [List.getD]
    | succ n =>
      simp only [List.cons_append, getD_cons_succ']
      exact ih n (by simp at h; omega) x d

theorem getD_replicate_self {β : Type} :
    ∀ (n i : Nat) (d : β), (List.replicate n d).getD i d = d := by
  intro n
  induction n with
  | zero => intro i d; cases i <;> simp [List.getD]
  | succ m ih =>
    intro i d
    cases i with
    | zero => simp [List.replicate, List.getD]
    | succ k => simp only [List.replicate, getD_cons_succ']; exact ih k d

theorem lastHit_lt (C s : Nat) :
    ∀ K j, lastHit K C s = some j → j < K ∧ j % C = s := by
  intro K
  induction K with
  | zero => intro j h; simp [lastHit] at h
  | succ k ih =>
    intro j h
    by_cases hk : k % C = s
    · simp [lastHit, hk] at h
      subst h; exact ⟨Nat.lt_succ_self k, hk⟩
    · simp [lastHit, hk] at h
      obtain ⟨h1, h2⟩ := ih j h
      exact ⟨Nat.lt_succ_of_lt h1, h2⟩

theorem lastHit_eq_some (C s : Nat) :
    ∀ K j0, j0 < K → j0 % C = s → (∀ j, j0 < j → j < K → j % C ≠ s) →
      lastHit K C s = some j0 := by
  intro K
  induction K with
  | zero => intro j0 h; omega
  | succ k ih =>
    intro j0 h1 h2 h3
    by_cases hk : k % C = s
    · have : j0 = k := by
        by_contra hne
        exact h3 k (by omega) (Nat.lt_succ_self k) hk
      subst this
      simp [lastHit, hk]
    · have hj0k : j0 ≠ k := fun he => hk (he ▸ h2)
      simp [lastHit, hk]
      exact ih j0 (by omega) h2 (fun j ha hb => h3 j ha (by omega))

theorem succ_mod_eq (K C : Nat) (hC : 0 < C) :
    (K + 1) % C = if C ≤ K % C + 1 then 0 else K % C + 1 := by
  have hr : K % C < C := Nat.mod_lt _ hC
  have h2 : (K % C + 1) % C = (K + 1) % C := Nat.mod_add_mod K C 1
  by_cases h : C ≤ K % C + 1
  · rw [if_pos h, ← h2]
    have he : K % C + 1 = C := by omega
    rw [he, Nat.mod_self]
  · rw [if_neg h, ← h2]
    exact Nat.mod_eq_of_lt (by omega)

theorem appendAll_concat {α : Type} (tb : TB α) (L : List α) (x : α) :
    appendAll tb (L ++ [x]) = appendTB (appendAll tb L) x := by
  simp [appendAll, List.foldl_append]

theorem appendAll_fields {α : Type} (C : Nat) (hC : 0 < C) (L : List α) :
    (appendAll (freshTB α C) L).cap = C ∧
    (appendAll (freshTB α C) L).buf.length = C ∧
    (appendAll (freshTB α C) L).head = L.length % C ∧
    (appendAll (freshTB α C) L).wrapped = decide (C ≤ L.length) ∧
    (appendAll (freshTB α C) L).seq_ctr = L.length ∧
    (appendAll (freshTB α C) L).pending_cname = "" := by
  induction L using List.reverseRecOn with
  | nil =>
    have hle : ¬ C ≤ 0 := by omega
    refine ⟨rfl, ?_, rfl, ?_, rfl, rfl⟩
    · show (List.replicate C (none : Option (Slot α))).length = C
      simp
    · show false = decide (C ≤ 0)
      simp [hle]
  | append_singleton L x ih =>
    obtain ⟨hcap, hbuf, hhead, hwrap, hseq, hpend⟩ := ih
    rw [appendAll_concat]
    have hmodle := Nat.mod_le L.length C
    refine ⟨by simp [appendTB, hcap], by simp [appendTB, hbuf], ?_, ?_, ?_, ?_⟩
    · simp only [appendTB, hcap, hhead, List.length_append, List.length_cons,
        List.length_nil]
      rw [succ_mod_eq L.length C hC]
    · simp only [appendTB, hcap, hhead, hwrap, List.length_append,
        List.length_cons, List.length_nil]
      by_cases h : C ≤ L.length % C + 1
      · rw [if_pos h]
        have : C ≤ L.length + 1 := by omega
        simp [this]
      · rw [if_neg h]
        have hr : L.length % C < C := Nat.mod_lt _ hC
        simp only [decide_eq_decide]
        by_cases hk : L.length < C
        · have : L.length % C = L.length := Nat.mod_eq_of_lt hk
          omega
        · omega
    · simp [appendTB, hseq]
    · simp [appendTB]

theorem appendAll_slot {α : Type} (C : Nat) (hC : 0 < C) (L : List α) (dflt : α)
    (s : Nat) (hs : s < C) :
    (appendAll (freshTB α C) L).buf.getD s none =
      (lastHit L.length C s).map
        (fun j => ⟨j + 1, "", L.getD j dflt⟩) := by
  induction L using List.reverseRecOn with
  | nil =>
    simp only [appendAll, List.foldl_nil, freshTB, List.length_nil, lastHit,
      Option.map_none]
    exact getD_replicate_self C s none
  | append_singleton L x ih =>
    obtain ⟨hcap, hbuf, hhead, hwrap, hseq, hpend⟩ := appendAll_fields C hC L
    rw [appendAll_concat]
    have hbuflen : (appendAll (freshTB α C) L).buf.length = C := hbuf
    have hmod : L.length % C < C := Nat.mod_lt _ hC
    by_cases hcase : L.length % C = s
    · have hset : ((appendAll (freshTB α C) L).buf.set (L.length % C)
          (some ⟨L.length + 1, "", x⟩)).getD s none = some ⟨L.length + 1, "", x⟩ := by
        rw [hcase] at hmod ⊢
        exact getD_set_self _ s (by omega) _ none
      simp only [appendTB, hhead, hseq, hpend]
      rw [hset]
      have : lastHit (L ++ [x]).length C s = some L.length := by
        simp only [List.length_append, List.length_cons, List.length_nil, lastHit]
        rw [if_pos hcase]
      rw [this]
      simp [getD_append_len L x dflt]
    · simp only [appendTB, hhead, hseq, hpend]
      rw [getD_set_ne _ _ _ hcase _ none]
      have : lastHit (L ++ [x]).length C s = lastHit L.length C s := by
        simp only [List.length_append, List.length_cons, List.length_nil, lastHit]
        rw [if_neg hcase]
      rw [this, ih]
      cases hlh : lastHit L.length C s with
      | none => simp
      | some j =>
        obtain ⟨hj1, _⟩ := lastHit_lt C s L.length j hlh
        have hgd := getD_append_lt L j hj1 x dflt
        simp only [Option.map_some']
        rw [hgd]

theorem filterMap_eq_map_of_some {β γ : Type} (f : β → Option γ) (g : β → γ) :
    ∀ l : List β, (∀ x ∈ l, f x = some (g x)) → l.filterMap f = l.map g := by
  intro l
  induction l with
  | nil => intro _; rfl
  | cons a t ih =>
    intro h
    rw [List.filterMap_cons, h a (by simp), List.map_cons,
      ih (fun x hx => h x (by simp [hx]))]

theorem collect_formula {α : Type} (C : Nat) (hC : 0 < C) (L : List α) (dflt : α) :
    collectTB (appendAll (freshTB α C) L) =
      (List.range (min L.length C)).map
        (fun i => ⟨L.length - min L.length C + i + 1, "",
                   L.getD (L.length - min L.length C + i) dflt⟩) := by
  obtain ⟨hcap, hbuf, hhead, hwrap, hseq, hpend⟩ := appendAll_fields C hC L
  have hmod : L.length % C < C := Nat.mod_lt _ hC
  by_cases hw : C ≤ L.length
  · have hwrapped : (appendAll (freshTB α C) L).wrapped = true := by
      rw [hwrap]; simp [hw]
    have hmin : min L.length C = C := by omega
    rw [collectTB]
    simp only [hwrapped, hcap, hhead, hmin, if_true]
    apply filterMap_eq_map_of_some
    intro i hi
    simp only [if_true] at hi ⊢
    have hiC : i < C := List.mem_range.mp hi
    set s := if C ≤ L.length % C + i then L.length % C + i - C else L.length % C + i
      with hs_def
    have hsC : s < C := by rw [hs_def]; split <;> omega
    have hsval : (L.length - C + i) % C = s := by
      have e1 : L.length - C + i + C = L.length + i := by omega
      have e2 : (L.length - C + i + C) % C = (L.length - C + i) % C :=
        Nat.add_mod_right _ C
      rw [e1] at e2
      have e3 : (L.length % C + i) % C = (L.length + i) % C :=
        Nat.mod_add_mod L.length C i
      rw [← e2, ← e3, hs_def]
      split
      · rename_i hge
        rw [Nat.mod_eq_sub_mod hge]
        exact Nat.mod_eq_of_lt (by omega)
      · exact Nat.mod_eq_of_lt (by omega)
    have hhit : lastHit L.length C s = some (L.length - C + i) := by
      apply lastHit_eq_some
      · omega
      · exact hsval
      · intro j hj1 hj2 hjmod
        have hmeq : (L.length - C + i) % C = j % C := by rw [hsval, hjmod]
        have hdvd : C ∣ j - (L.length - C + i) :=
          (Nat.modEq_iff_dvd' (by omega)).mp hmeq
        have hle : C ≤ j - (L.length - C + i) :=
          Nat.le_of_dvd (by omega) hdvd
        omega
    rw [appendAll_slot C hC L dflt s hsC, hhit]
    rfl
  · have hwrapped : (appendAll (freshTB α C) L).wrapped = false := by
      rw [hwrap]; simp; omega
    have hmin : min L.length C = L.length := by omega
    have hheadK : (appendAll (freshTB α C) L).head = L.length := by
      rw [hhead]; exact Nat.mod_eq_of_lt (by omega)
    rw [collectTB]
    simp only [hwrapped, hcap, hheadK, Bool.false_eq_true, if_false, hmin]
    apply filterMap_eq_map_of_some
    intro i hi
    simp only [Bool.false_eq_true, if_false, Nat.zero_add] at hi ⊢
    have hiK : i < L.length := List.mem_range.mp hi
    have hiC : i < C := by omega
    have hidx : ¬ C ≤ i := by omega
    have hhit : lastHit L.length C i = some i := by
      apply lastHit_eq_some
      · omega
      · exact Nat.mod_eq_of_lt hiC
      · intro j hj1 hj2 hjmod
        have : j % C = j := Nat.mod_eq_of_lt (by omega)
        omega
    rw [if_neg hidx, appendAll_slot C hC L dflt i hiC, hhit]
    have he : L.length - L.length + i = i := by omega
    simp [he]

/-- C2: for a single thread with ring capacity `C > 0` that appends `K`
admitted events and is then collected, exactly `min K C` of its events
appear, namely the most recent `min K C` in emission order, with sequence
numbers continuing across the wrap (event `j` carries sequence `j+1`, and
the thread sequence counter equals `K`, never reset). -/
theorem ring_overflow_collect {α : Type} (C : Nat) (hC : 0 < C) (L : List α)
    (dflt : α) :
    collectTB (appendAll (freshTB α C) L) =
      (List.range (min L.length C)).map
        (fun i => ⟨L.length - min L.length C + i + 1, "",
                   L.getD (L.length - min L.length C + i) dflt⟩) ∧
    (appendAll (freshTB α C) L).seq_ctr = L.length :=
  ⟨collect_formula C hC L dflt, (appendAll_fields C hC L).2.2.2.2.1⟩

/-- Witness for C2: with capacity 4 and six instants `e0..e5`, the collected
output is exactly `e2..e5` in that order with sequence numbers 3..6. -/
theorem ring_overflow_collect_witness :
    0 < 4 ∧
    collectTB (appendAll (freshTB String 4) ["e0", "e1", "e2", "e3", "e4", "e5"]) =
      [⟨3, "", "e2"⟩, ⟨4, "", "e3"⟩, ⟨5, "", "e4"⟩, ⟨6, "", "e5"⟩] := by
  refine ⟨by decide, ?_⟩
  rw [(ring_overflow_collect 4 (by decide) ["e0", "e1", "e2", "e3", "e4", "e5"] "").1]
  decide

theorem keyLe_iff (a b : CleanEvent) : keyLe a b ↔ keyOrdered a b := by
  simp only [keyLe, cleanLt]
  by_cases h1 : b.ts_us = a.ts_us
  · by_cases h2 : b.tid = a.tid
    · simp only [h1, h2, ne_eq, not_true_eq_false, if_false, ite_self,
        decide_eq_false_iff_not, Nat.not_lt]
      omega
    · simp only [h1, h2, ne_eq, not_true_eq_false, if_false, not_false_eq_true,
        if_true, decide_eq_false_iff_not, Nat.not_lt]
      omega
  · simp only [h1, ne_eq, not_false_eq_true, if_true, decide_eq_false_iff_not,
      Nat.not_lt]
    omega

theorem keyLe_total (a b : CleanEvent) : keyLe a b ∨ keyLe b a := by
  rw [keyLe_iff, keyLe_iff]
  omega

theorem keyLe_trans {a b c : CleanEvent} (h1 : keyLe a b) (h2 : keyLe b c) :
    keyLe a c := by
  rw [keyLe_iff] at h1 h2 ⊢
  omega

theorem keyLe_antisymm_key {a b : CleanEvent} (h1 : keyLe a b) (h2 : keyLe b a) :
    evKey a = evKey b := by
  rw [keyLe_iff] at h1 h2
  have h3 : a.ts_us = b.ts_us ∧ a.tid = b.tid ∧ a.seq = b.seq := by omega
  simp [evKey, h3.1, h3.2.1, h3.2.2]

theorem cleanLt_asymm {a b : CleanEvent} (h : cleanLt a b = true) :
    cleanLt b a = false := by
  rcases keyLe_total a b with h2 | h2
  · exact h2
  · exfalso
    have h3 : cleanLt a b = false := h2
    rw [h] at h3
    exact absurd h3 (by decide)

theorem mem_insertByKey {x z : CleanEvent} :
    ∀ l, z ∈ insertByKey x l ↔ z = x ∨ z ∈ l := by
  intro l
  induction l with
  | nil => simp [insertByKey]
  | cons y ys ih =>
    by_cases h : cleanLt y x
    · simp only [insertByKey, if_pos h, List.mem_cons, ih]
      tauto
    · simp only [insertByKey, if_neg h, List.mem_cons]

theorem insertByKey_sorted {x : CleanEvent} :
    ∀ l, SortedByKey l → SortedByKey (insertByKey x l) := by
  intro l
  induction l with
  | nil => intro _; simp [insertByKey, SortedByKey]
  | cons y ys ih =>
    intro h
    obtain ⟨hy, hys⟩ := List.pairwise_cons.mp h
    by_cases hlt : cleanLt y x
    · rw [insertByKey, if_pos hlt]
      refine List.pairwise_cons.mpr ⟨?_, ih hys⟩
      intro z hz
      rcases (mem_insertByKey _).mp hz with rfl | hz2
      · exact cleanLt_asymm hlt
      · exact hy z hz2
    · rw [insertByKey, if_neg hlt]
      refine List.pairwise_cons.mpr ⟨?_, h⟩
      intro z hz
      have hxy : keyLe x y := by
        simpa [keyLe] using hlt
      rcases List.mem_cons.mp hz with rfl | hz2
      · exact hxy
      · exact keyLe_trans hxy (hy z hz2)

theorem insertByKey_perm (x : CleanEvent) :
    ∀ l, (insertByKey x l).Perm (x :: l) := by
  intro l
  induction l with
  | nil => simp [insertByKey]
  | cons y ys ih =>
    by_cases h : cleanLt y x
    · rw [insertByKey, if_pos h]
      exact (ih.cons y).trans (List.Perm.swap x y ys)
    · rw [insertByKey, if_neg h]

theorem stableSortByKey_perm : ∀ l, (stableSortByKey l).Perm l := by
  intro l
  induction l with
  | nil => simp [stableSortByKey]
  | cons x xs ih =>
    exact (insertByKey_perm x (stableSortByKey xs)).trans (ih.cons x)

theorem stableSortByKey_sorted : ∀ l, SortedByKey (stableSortByKey l) := by
  intro l
  induction l with
  | nil => exact List.Pairwise.nil
  | cons x xs ih => exact insertByKey_sorted _ ih

theorem sorted_perm_eq :
    ∀ l1 l2 : List CleanEvent, l1.Perm l2 → SortedByKey l1 → SortedByKey l2 →
      l1.Pairwise (fun a b => evKey a ≠ evKey b) → l1 = l2 := by
  intro l1
  induction l1 with
  | nil =>
    intro l2 hp _ _ _
    exact (hp.symm.eq_nil).symm
  | cons a t1 ih =>
    intro l2 hp hs1 hs2 hnd
    cases l2 with
    | nil => exact absurd hp.eq_nil (by simp)
    | cons b t2 =>
      have hab : a = b := by
        have hbmem : b ∈ a :: t1 := hp.mem_iff.mpr (by simp)
        have hamem : a ∈ b :: t2 := hp.mem_iff.mp (by simp)
        rcases List.mem_cons.mp hbmem with h | h
        · exact h.symm
        rcases List.mem_cons.mp hamem with h2 | h2
        · exact h2
        have hk1 : keyLe a b := (List.pairwise_cons.mp hs1).1 b h
        have hk2 : keyLe b a := (List.pairwise_cons.mp hs2).1 a h2
        exact absurd (keyLe_antisymm_key hk1 hk2) ((List.pairwise_cons.mp hnd).1 b h)
      subst hab
      have hpt : t1.Perm t2 := hp.cons_inv
      rw [ih t2 hpt (List.pairwise_cons.mp hs1).2 (List.pairwise_cons.mp hs2).2
        (List.pairwise_cons.mp hnd).2]

/-- C1 (amended): every output admitted by the flush sort is ordered by the
key `(ts_us, tid, seq)` ascending — in particular any two events with equal
`ts` and distinct `(tid, seq)` appear in `(tid, seq)` ascending order — and
when all collected events have pairwise distinct keys the sorted output is
unique, so two flushes over the same collected events produce an identical
file.  Stability, and hence byte-identical output when two collected events
share a full `(ts, tid, seq)` key, is not guaranteed: the first flush sort
is `std::sort`. -/
theorem flush_sort_key_order (input out : List CleanEvent)
    (h : SortSpec input out) :
    out.Pairwise keyOrdered ∧
    (input.Pairwise (fun a b => evKey a ≠ evKey b) →
      ∀ out2, SortSpec input out2 → out = out2) := by
  constructor
  · exact h.2.imp (fun hab => (keyLe_iff _ _).mp hab)
  · intro hnd out2 h2
    have hout : out.Pairwise (fun a b => evKey a ≠ evKey b) :=
      (h.1.pairwise_iff (fun hne he => hne he.symm)).mpr hnd
    exact sorted_perm_eq out out2 (h.1.trans h2.1.symm) h.2 h2.2 hout

/-- Witness for C1 on events with distinct keys: the spec is satisfiable and
the theorem applies. -/
theorem flush_sort_key_order_witness :
    SortSpec [mNameEv, mSortEv] (stableSortByKey [mNameEv, mSortEv]) ∧
    (stableSortByKey [mNameEv, mSortEv]).Pairwise keyOrdered := by
  have h : SortSpec [mNameEv, mSortEv] (stableSortByKey [mNameEv, mSortEv]) :=
    ⟨stableSortByKey_perm _, stableSortByKey_sorted _⟩
  exact ⟨h, (flush_sort_key_order _ _ h).1⟩

/-- C1 counterexample: the two metadata events of one thread collide on the
full key `(0, 7, 0)`, and the reversed order also satisfies everything
`std::sort` guarantees, while differing from the stable order.  Hence the
claim that the flush sort is stable (and that equal-`ts` ties always come
out `(tid, seq)` ascending deterministically) does not follow from the
code, which uses unstable `std::sort` for the snapshot sort. -/
theorem flush_sort_unstable_cex :
    SortSpec [mNameEv, mSortEv] [mSortEv, mNameEv] ∧
    [mSortEv, mNameEv] ≠ stableSortByKey [mNameEv, mSortEv] := by
  refine ⟨⟨List.Perm.swap mNameEv mSortEv [], ?_⟩, ?_⟩
  · decide
  · decide

theorem csvHasAux_iff_mem (key : List Char) :
    ∀ (n : Nat) (l : List Char), l.length ≤ n →
      (csvHasAux key n l = true ↔ key ∈ csvTokensAux n l) := by
  intro n
  induction n with
  | zero =>
    intro l hl
    have : l = [] := by
      cases l with
      | nil => rfl
      | cons a t => simp at hl
    subst this
    simp [csvHasAux, csvTokensAux]
  | succ n ih =>
    intro l hl
    cases l with
    | nil => simp [csvHasAux, csvTokensAux]
    | cons c cs =>
      by_cases hsep : isCsvSep c
      · rw [csvHasAux, csvTokensAux]
        simp only [hsep, if_true]
        exact ih cs (by simp at hl; omega)
      · rw [csvHasAux, csvTokensAux]
        simp only [hsep, Bool.false_eq_true, if_false]
        by_cases htok : c :: cs.takeWhile (fun x => !(x == ',')) = key
        · simp [htok]
        · simp only [htok, Bool.false_eq_true, if_false, List.mem_cons]
          rw [ih (cs.dropWhile (fun x => !(x == ','))) ?_]
          · constructor
            · intro hm; exact Or.inr hm
            · intro hm
              rcases hm with hm | hm
              · exact absurd hm.symm htok
              · exact hm
          · have := dropWhile_len_le (fun x => !(x == ',')) cs
            simp at hl
            omega

theorem csv_has_empty_key (csv : String) : csv_has csv "" = false := by
  rw [csv_has, if_pos]
  exact Or.inr rfl

theorem null_cat_denied (cfg : GateCfg) (u : ℚ) (name : Option String)
    (h : cfg.allow_cats.isEmpty = false) :
    should_emit cfg u name none = false := by
  rw [should_emit]
  by_cases h1 : (!cfg.enabled) = true
  · rw [if_pos h1]
  · rw [if_neg h1]
    by_cases h2 : cfg.sample_keep < 1 ∧ u > cfg.sample_keep
    · rw [if_pos h2]
    · rw [if_neg h2]
      have hc : (!cfg.allow_cats.isEmpty) = true ∧
          (!(csv_has cfg.allow_cats ((none : Option String).getD ""))) = true := by
        constructor
        · simp [h]
        · simp [csv_has_empty_key]
      rw [if_pos hc]

/-- C4 (amended): category CSV matching compares tokens by exact string
equality after skipping leading whitespace and commas, a token running to
the next comma; `csv_has` answers exactly membership of the key among the
scanned tokens of a non-empty CSV, for a non-empty key.  A null (absent)
category is treated as the empty string, and the empty key matches no
token — `csv_has` returns false for it — so an event with a null category
is denied by every non-empty allowlist, including one containing an empty
token. -/
theorem csv_gate_matching :
    (∀ csv key : String, csv_has csv key = true ↔
        (csv.data ≠ [] ∧ key.data ≠ [] ∧
          key.data ∈ csvTokensAux csv.data.length csv.data)) ∧
    (∀ csv : String, csv_has csv "" = false) ∧
    (∀ (cfg : GateCfg) (u : ℚ) (name : Option String),
        cfg.allow_cats.isEmpty = false → should_emit cfg u name none = false) := by
  refine ⟨?_, csv_has_empty_key, null_cat_denied⟩
  intro csv key
  rw [csv_has]
  by_cases h : csv.data = [] ∨ key.data = []
  · rw [if_pos h]
    constructor
    · intro hfalse; exact absurd hfalse (by simp)
    · intro ⟨h1, h2, _⟩
      rcases h with h | h
      · exact absurd h h1
      · exact absurd h h2
  · rw [if_neg h]
    push_neg at h
    rw [csvHasAux_iff_mem key.data csv.data.length csv.data le_rfl]
    constructor
    · intro hm; exact ⟨h.1, h.2, hm⟩
    · intro ⟨_, _, hm⟩; exact hm

/-- Witness for C4 (amended): a matching token is found, and a null-category
event is denied by the non-empty allowlist "io". -/
theorem csv_gate_matching_witness :
    csv_has "io" "io" = true ∧
    should_emit { enabled := true, sample_keep := 1, allow_cats := "io",
                  deny_cats := "", filter := none } 0 (some "x") none = false := by
  refine ⟨(csv_gate_matching.1 "io" "io").mpr ?_, csv_gate_matching.2.2 _ 0 (some "x") ?_⟩
  · exact ⟨by decide, by decide, by decide⟩
  · decide

/-- C4 counterexample: the allowlist ",," syntactically contains an empty
token, yet an event emitted with a null category does not pass the
allowlist check — `should_emit` denies it — because `csv_has` returns false
for the empty key rather than matching the null category against the empty
token. -/
theorem null_cat_allowlist_cex :
    should_emit { enabled := true, sample_keep := 1, allow_cats := ",,",
                  deny_cats := "", filter := none } 0 (some "x") none = false ∧
    csv_has ",," "" = false := by
  constructor
  · decide
  · decide

theorem should_emit_not_enabled (cfg : GateCfg) (u : ℚ) (name cat : Option String)
    (h : cfg.enabled = false) : should_emit cfg u name cat = false := by
  simp [should_emit, h]

/-- C3 (amended): for every event emitter — begin/end, instants, counters,
completes, flows — the admission gate is evaluated before any ring slot is
reserved, and a denial leaves the thread buffer untouched; if the enabled
flag is false, nothing is emitted by any emitter, the metadata emitters
included.  The metadata emitters for thread name, process name and thread
sort index, however, check only the enabled flag: whenever it is set they
reserve a slot unconditionally, bypassing sampling, the category
allow/deny lists and the user predicate. -/
theorem gate_checked_before_reserve :
    (∀ (ctx : EmitCtx) (name cat : Option String) (tb : TB RecCore),
      should_emit ctx.cfg ctx.u name cat = false →
        emit_begin ctx name cat tb = tb ∧
        emit_end ctx name cat tb = tb ∧
        emit_instant ctx name cat tb = tb ∧
        (∀ k v, emit_instant_kv ctx name k v cat tb = tb) ∧
        (∀ k v, emit_instant_kvs1 ctx name cat k v tb = tb) ∧
        (∀ kvs, emit_counter_n ctx name cat kvs tb = tb) ∧
        (∀ d, emit_complete ctx name d cat tb = tb) ∧
        (∀ d k v, emit_complete_kv ctx name d k v cat tb = tb)) ∧
    (∀ (ctx : EmitCtx) (ph : Phase) (id : Nat) (name cat : Option String)
        (tb : TB RecCore),
      should_emit ctx.cfg ctx.u (some (name.getD "flow")) (some (cat.getD "flow")) = false →
        emit_flow ctx ph id name cat tb = tb) ∧
    (∀ (ctx : EmitCtx), ctx.cfg.enabled = false →
      ∀ (name cat k kk : Option String) (v : ℚ) (d : Nat) (i : Int)
        (kvs : List (Option String × ℚ)) (ph : Phase) (id : Nat) (tb : TB RecCore),
        emit_begin ctx name cat tb = tb ∧
        emit_end ctx name cat tb = tb ∧
        emit_instant ctx name cat tb = tb ∧
        emit_instant_kv ctx name k v cat tb = tb ∧
        emit_instant_kvs1 ctx name cat k kk tb = tb ∧
        emit_counter_n ctx name cat kvs tb = tb ∧
        emit_complete ctx name d cat tb = tb ∧
        emit_complete_kv ctx name d k v cat tb = tb ∧
        emit_flow ctx ph id name cat tb = tb ∧
        emit_thread_name ctx name tb = tb ∧
        emit_thread_sort_index ctx i tb = tb ∧
        emit_process_name ctx name tb = tb) ∧
    (∀ (ctx : EmitCtx) (name : Option String) (i : Int) (tb : TB RecCore),
      ctx.cfg.enabled = true →
        (emit_thread_name ctx name tb).seq_ctr = tb.seq_ctr + 1 ∧
        (emit_thread_sort_index ctx i tb).seq_ctr = tb.seq_ctr + 1 ∧
        (emit_process_name ctx name tb).seq_ctr = tb.seq_ctr + 1) := by
  refine ⟨?_, ?_, ?_, ?_⟩
  · intro ctx name cat tb h
    refine ⟨?_, ?_, ?_, ?_, ?_, ?_, ?_, ?_⟩ <;>
      first
        | simp [emit_begin, h]
        | simp [emit_end, h]
        | simp [emit_instant, h]
        | (intro k v; simp [emit_instant_kv, h])
        | (intro k v; simp [emit_instant_kvs1, h])
        | (intro kvs; simp [emit_counter_n, h])
        | (intro d; simp [emit_complete, h])
        | (intro d k v; simp [emit_complete_kv, h])
  · intro ctx ph id name cat tb h
    simp [emit_flow, h]
  · intro ctx hoff name cat k kk v d i kvs ph id tb
    have h := should_emit_not_enabled ctx.cfg ctx.u name cat hoff
    have hf := should_emit_not_enabled ctx.cfg ctx.u
      (some (name.getD "flow")) (some (cat.getD "flow")) hoff
    refine ⟨?_, ?_, ?_, ?_, ?_, ?_, ?_, ?_, ?_, ?_, ?_, ?_⟩
    · simp [emit_begin, h]
    · simp [emit_end, h]
    · simp [emit_instant, h]
    · simp [emit_instant_kv, h]
    · simp [emit_instant_kvs1, h]
    · simp [emit_counter_n, h]
    · simp [emit_complete, h]
    · simp [emit_complete_kv, h]
    · simp [emit_flow, hf]
    · simp [emit_thread_name, hoff]
    · simp [emit_thread_sort_index, hoff]
    · simp [emit_process_name, hoff]
  · intro ctx name i tb hon
    refine ⟨?_, ?_, ?_⟩
    · simp [emit_thread_name, hon, appendTB]
    · simp [emit_thread_sort_index, hon, appendTB]
    · simp [emit_process_name, hon, appendTB]

/-- Witness for C3 (amended): a denied category leaves the ring untouched,
and with the flag off even a thread-name metadata event is dropped. -/
theorem gate_checked_before_reserve_witness :
    should_emit ctxDeny.cfg ctxDeny.u (some "a") (some "dbg") = false ∧
    emit_instant ctxDeny (some "a") (some "dbg") (freshTB RecCore 4) =
      freshTB RecCore 4 ∧
    (emit_thread_name ctxDeny (some "w") (freshTB RecCore 4)).seq_ctr = 0 + 1 := by
  have h : should_emit ctxDeny.cfg ctxDeny.u (some "a") (some "dbg") = false := by
    decide
  refine ⟨h, ?_, ?_⟩
  · exact (gate_checked_before_reserve.1 ctxDeny (some "a") (some "dbg")
      (freshTB RecCore 4) h).2.2.1
  · exact (gate_checked_before_reserve.2.2.2 ctxDeny (some "w") 0
      (freshTB RecCore 4) (by decide)).1

/-- C3 counterexample: with the non-empty allowlist "io" the admission gate
denies an event whose category is empty, yet `emit_thread_name` reserves a
ring slot anyway (the sequence counter advances): the metadata emitters do
not evaluate the admission gate before reserving, and the recorded
metadata event's category ("", not in the allowlist) violates the claimed
allowlist invariant. -/
theorem metadata_bypass_gate_cex :
    should_emit cfgAllowIO 0 (some "w") (some "") = false ∧
    (emit_thread_name ctxAllowIO (some "w") (freshTB RecCore 4)).seq_ctr = 1 ∧
    csv_has "io" "" = false := by
  refine ⟨by decide, by decide, by decide⟩

/-- C5: `flush_file` exchanges the enabled flag to false at the start,
keeping the previous value, and on every return path — rotation, open
failure, and success — restores the flag to that prior value and returns
normally. -/
theorem flush_restores_enabled (r : Reg2) (path : Option String)
    (openOk renameOk : Bool) :
    (flush_file r path openOk renameOk).duringEnabled = false ∧
    (flush_file r path openOk renameOk).finalReg.enabled = r.enabled := by
  rw [flush_file]
  split
  · exact ⟨rfl, rfl⟩
  · split
    · exact ⟨rfl, rfl⟩
    · exact ⟨rfl, rfl⟩

/-- C10: when a rotation pattern is configured, `flush_file` writes
exclusively through the rotated writer: its behaviour is identical for
every `path` argument, and every path it opens is derived from the pattern
(the staging `.tmp`, the final path, or the adjusted final) — so neither
the `path` argument nor the default output path is opened unless it
coincides with one of those.  Without a pattern, the opened file is the
`path` argument, falling back to the default path. -/
theorem rotation_ignores_path :
    (∀ (r : Reg2) (p q : Option String) (openOk renameOk : Bool),
      r.rot.pattern.data ≠ [] →
        flush_file r p openOk renameOk = flush_file r q openOk renameOk ∧
        (flush_file r p openOk renameOk).usedRotated = true ∧
        ∀ x ∈ (flush_file r p openOk renameOk).opens,
          x = make_tmp_path (rotatedAdjustedPath r.rot) ∨
          x = rotatedFinalPath r.rot ∨ x = rotatedAdjustedPath r.rot) ∧
    (∀ (r : Reg2) (p : Option String) (openOk renameOk : Bool),
      r.rot.pattern.data = [] →
        (flush_file r p openOk renameOk).opens = [p.getD r.default_path] ∧
        (flush_file r p openOk renameOk).usedRotated = false) := by
  constructor
  · intro r p q openOk renameOk h
    refine ⟨?_, ?_, ?_⟩
    · rw [flush_file, flush_file]
      simp only [if_pos h]
    · rw [flush_file]
      simp only [if_pos h]
    · rw [flush_file]
      simp only [if_pos h]
      intro x hx
      rw [rotatedOpens] at hx
      split at hx
      · simp only [List.mem_cons, List.not_mem_nil, or_false] at hx
        rcases hx with rfl | rfl
        · exact Or.inl rfl
        · exact Or.inr (Or.inl rfl)
      · split at hx
        · simp only [List.mem_singleton] at hx
          subst hx
          exact Or.inl rfl
        · simp only [List.mem_cons, List.not_mem_nil, or_false] at hx
          rcases hx with rfl | rfl
          · exact Or.inl rfl
          · exact Or.inr (Or.inr rfl)
  · intro r p openOk renameOk h
    rw [flush_file]
    simp only [h, ne_eq, not_true_eq_false, if_false]
    split
    · exact ⟨rfl, rfl⟩
    · exact ⟨rfl, rfl⟩

/-- Witness for C10: with the pattern configured, flushing with an explicit
path argument equals flushing with none, only the staging and final paths
derived from the pattern are opened, and without a pattern the path
argument is the opened file. -/
theorem rotation_ignores_path_witness :
    flush_file regRot (some "other.json") true true =
      flush_file regRot none true true ∧
    (flush_file regRot (some "other.json") true true).opens =
      ["run-000.json.tmp"] ∧
    (flush_file { regRot with rot := set_output_pattern false none 0 0 }
        (some "other.json") true true).opens = ["other.json"] := by
  refine ⟨(rotation_ignores_path.1 regRot (some "other.json") none true true
    (by decide)).1, by decide, ?_⟩
  exact (rotation_ignores_path.2 _ (some "other.json") true true (by decide)).1

theorem getLast?_append_right {β : Type} (l1 l2 : List β) (h : l2 ≠ []) :
    (l1 ++ l2).getLast? = l2.getLast? :=
  List.getLast?_append_of_ne_nil l1 h

/-- C6 (amended): the rotated writer stages all JSON bytes in
`<final>.tmp` and never leaves the staging file behind at the end of a
flush.  In the non-gzip rename path the final path never holds a partially
written file — at every instant it is the previous file, absent, or the
new completed file — but it is briefly absent, because the writer removes
it before the rename.  With gzip, the final `.gz` is written in place:
successful compression ends with the complete new file, a failed one with
the final path removed.  (Mid-compression the final path holds a partial
file; see the counterexample.) -/
theorem rotated_staging (gz gzOk renameOk : Bool) (prev : Option Data)
    (json gzc : Data) :
    ((rotatedTrace gz gzOk renameOk prev json gzc).getLast?.map Fs.tmp =
      some none) ∧
    (gz = false → renameOk = true →
      ∀ s ∈ rotatedTrace gz gzOk renameOk prev json gzc,
        s.final = prev ∨ s.final = none ∨ s.final = some json) ∧
    (gz = false → renameOk = true →
      (rotatedTrace gz gzOk renameOk prev json gzc).getLast? =
        some ⟨some json, none⟩) ∧
    (gz = true → gzOk = true →
      (rotatedTrace gz gzOk renameOk prev json gzc).getLast? =
        some ⟨some gzc, none⟩) ∧
    (gz = true → gzOk = false →
      (rotatedTrace gz gzOk renameOk prev json gzc).getLast? =
        some ⟨none, none⟩) := by
  refine ⟨?_, ?_, ?_, ?_, ?_⟩
  · rw [rotatedTrace]
    cases gz with
    | true =>
      cases gzOk with
      | true =>
        rw [if_pos rfl, if_pos rfl]
        rw [getLast?_append_right _ _ (by simp)]
        rw [getLast?_append_right _ _ (by simp)]
        rfl
      | false =>
        rw [if_pos rfl, if_neg (by simp)]
        rw [getLast?_append_right _ _ (by simp)]
        rw [getLast?_append_right _ _ (by simp)]
        rfl
    | false =>
      cases renameOk with
      | true =>
        rw [if_neg (by simp), if_pos rfl]
        rw [getLast?_append_right _ _ (by simp)]
        rw [getLast?_append_right _ _ (by simp)]
        rfl
      | false =>
        rw [if_neg (by simp), if_neg (by simp)]
        rw [getLast?_append_right _ _ (by simp)]
        rw [getLast?_append_right _ _ (by simp)]
        rw [getLast?_append_right _ _ (by simp)]
        rfl
  · intro hgz hrn
    subst hgz; subst hrn
    intro s hs
    rw [rotatedTrace] at hs
    rw [if_neg (by simp), if_pos rfl] at hs
    simp only [List.cons_append, List.nil_append, List.mem_append,
      List.mem_cons, tmpWriteStates, List.mem_map, List.mem_range,
      List.mem_singleton, List.not_mem_nil, or_false, false_or] at hs
    rcases hs with rfl | rfl | ⟨k, _, rfl⟩ | rfl | rfl
    · exact Or.inl rfl
    · exact Or.inl rfl
    · exact Or.inl rfl
    · exact Or.inr (Or.inl rfl)
    · exact Or.inr (Or.inr rfl)
  · intro hgz hrn
    subst hgz; subst hrn
    rw [rotatedTrace]
    rw [if_neg (by simp), if_pos rfl]
    rw [getLast?_append_right _ _ (by simp)]
    rw [getLast?_append_right _ _ (by simp)]
    rfl
  · intro hgz hok
    subst hgz; subst hok
    rw [rotatedTrace]
    rw [if_pos rfl, if_pos rfl]
    rw [getLast?_append_right _ _ (by simp)]
    rw [getLast?_append_right _ _ (by simp)]
    rfl
  · intro hgz hok
    subst hgz; subst hok
    rw [rotatedTrace]
    rw [if_pos rfl, if_neg (by simp)]
    rw [getLast?_append_right _ _ (by simp)]
    rw [getLast?_append_right _ _ (by simp)]
    rfl

/-- Witness for C6 (amended): at a concrete non-gzip flush every state of
the trace holds the previous file, nothing, or the new file at the final
path, and no staging file remains at the end. -/
theorem rotated_staging_witness :
    (∀ s ∈ rotatedTrace false true true (some [0]) [1] [],
      s.final = some [0] ∨ s.final = none ∨ s.final = some [1]) ∧
    ((rotatedTrace false true true (some [0]) [1] []).getLast?.map Fs.tmp =
      some none) := by
  refine ⟨fun s hs => (rotated_staging false true true (some [0]) [1] []).2.1
    rfl rfl s hs, (rotated_staging false true true (some [0]) [1] []).1⟩

/-- C6 counterexample: with gzip active the final path is written in place
by `compress_file_to_gzip`, so mid-compression it holds a strict prefix of
the new file — neither the previous completed file nor the new one; and
even in the non-gzip path the final file is removed before the rename, so
there is an instant at which the final path holds no file at all.  Both
contradict the claim that the final path always holds either the previous
or the new completed file and that only finalization makes new content
observable there. -/
theorem rotated_partial_final_cex :
    (⟨some [2], some [1]⟩ : Fs) ∈ rotatedTrace true true true (some [0]) [1] [2, 3] ∧
    ((some [2] : Option Data) ≠ some [0] ∧ (some [2] : Option Data) ≠ some [2, 3]) ∧
    (⟨none, some [1]⟩ : Fs) ∈ rotatedTrace false true true (some [0]) [1] [] ∧
    ((none : Option Data) ≠ some [0] ∧ (none : Option Data) ≠ some [1]) := by
  refine ⟨by decide, by decide, by decide, by decide⟩

/-- C7 (amended): `otrace_set_sampling` clamps every argument into [0, 1];
the one-time OTRACE_SAMPLE environment read, however, stores the parsed
value into `sample_keep` with no clamping, so on that configuration path a
keep probability outside [0, 1] persists. -/
theorem sampling_clamp :
    (∀ x : ℚ, 0 ≤ otrace_set_sampling x ∧ otrace_set_sampling x ≤ 1) ∧
    (∀ (st : EnvState) (d e : Option String) (s : String),
      (at_env_init st d e (some s)).sample_keep = atofQ s) := by
  constructor
  · intro x
    rw [otrace_set_sampling]
    by_cases h1 : x < 0
    · simp only [if_pos h1]
      norm_num
    · simp only [if_neg h1]
      by_cases h2 : x > 1
      · simp only [if_pos h2]
        norm_num
      · simp only [if_neg h2]
        constructor
        · linarith [not_lt.mp h1]
        · linarith [not_lt.mp h2]
  · intro st d e s
    cases d <;> cases e <;> rfl

/-- C7 counterexample: after the one-time environment read with
OTRACE_SAMPLE="2.5", the registry's keep probability is 5/2 — outside
[0, 1] — because the env path (`reg().sample_keep = std::atof(s)`) applies
no clamping. -/
theorem env_sample_unclamped_cex :
    (at_env_init ⟨true, 1⟩ none none (some "2.5")).sample_keep = 5 / 2 ∧
    ¬ (at_env_init ⟨true, 1⟩ none none (some "2.5")).sample_keep ≤ 1 := by
  have h2 : ('2'.toNat : Nat) = 50 := by decide
  have h5 : ('5'.toNat : Nat) = 53 := by decide
  have he : (at_env_init ⟨true, 1⟩ none none (some "2.5")).sample_keep = 5 / 2 := by
    show atofQ "2.5" = 5 / 2
    norm_num +decide [atofQ, parseDigitsAux, pow10, h2, h5]
  refine ⟨he, ?_⟩
  rw [he]
  norm_num

theorem mapFind_mapSet_self {β : Type} (k : Nat) (v : β) :
    ∀ m : List (Nat × β), mapFind (mapSet m k v) k = some v := by
  intro m
  rw [mapSet]
  split
  · rename_i hsome
    induction m with
    | nil => simp [mapFind] at hsome
    | cons kv t ih =>
      by_cases hk : kv.1 = k
      · subst hk
        simp [mapFind]
      · rw [List.map_cons, if_neg hk, mapFind]
        simp only [if_neg hk]
        apply ih
        rw [mapFind, if_neg hk] at hsome
        exact hsome
  · rename_i hnone
    induction m with
    | nil => simp [mapFind]
    | cons kv t ih =>
      by_cases hk : kv.1 = k
      · exfalso
        apply hnone
        rw [mapFind, if_pos hk]
        rfl
      · rw [List.cons_append, mapFind, if_neg hk]
        apply ih
        intro hsome
        apply hnone
        rw [mapFind, if_neg hk]
        exact hsome

theorem mapFind_mapErase_self {β : Type} (k : Nat) :
    ∀ m : List (Nat × β), mapFind (mapErase m k) k = none := by
  intro m
  induction m with
  | nil => rfl
  | cons kv t ih =>
    rw [mapErase, List.filter_cons]
    by_cases hk : kv.1 = k
    · simp only [hk, beq_self_eq_true, Bool.not_true, Bool.false_eq_true,
        if_false]
      exact ih
    · have : (!(kv.1 == k)) = true := by simp [hk]
      rw [if_pos this, mapFind, if_neg hk]
      exact ih

theorem add_sub64_cancel (l s : Nat) (hl : l < W64) (hs : s < W64) :
    sub64 ((l + s) % W64) s = l := by
  rw [sub64, Nat.mod_add_mod]
  have h1 : l + s + (W64 - s % W64) = l + W64 := by
    have : s % W64 = s := Nat.mod_eq_of_lt hs
    omega
  rw [h1, Nat.add_mod_right]
  exact Nat.mod_eq_of_lt hl

theorem record_alloc_fields (st : HeapState) (p size : Nat) (u : ℚ)
    (cap : Option (Nat × String)) (now : Nat)
    (hen : st.enabled = true) (hp : p ≠ 0) :
    (record_alloc st p size false false u cap now).enabled = st.enabled ∧
    (record_alloc st p size false false u cap now).live_bytes =
      (st.live_bytes + size) % W64 ∧
    (record_alloc st p size false false u cap now).shards.length =
      st.shards.length ∧
    (∃ h : Nat,
      (record_alloc st p size false false u cap now).shards =
        st.shards.set (p % 64)
          (mapSet (st.shards.getD (p % 64) []) p ⟨size, h, now⟩)) := by
  rw [record_alloc.eq_def]
  rw [if_neg hp, if_neg (by simp), if_neg (by simp),
    if_neg (by simp [hen])]
  dsimp only
  refine ⟨?_, ?_, ?_, ?_⟩ <;> (repeat' split) <;>
    first
      | rfl
      | exact ⟨_, rfl⟩
      | simp

theorem record_free_found (st1 : HeapState) (p : Nat) (entry : AllocEntry)
    (hen1 : st1.enabled = true) (hp : p ≠ 0)
    (hfind : mapFind (st1.shards.getD (p % 64) []) p = some entry) :
    (record_free st1 p false false).live_bytes =
      sub64 st1.live_bytes entry.size ∧
    (record_free st1 p false false).shards =
      st1.shards.set (p % 64) (mapErase (st1.shards.getD (p % 64) []) p) := by
  rw [record_free.eq_def]
  rw [if_neg hp, if_neg (by simp), if_neg (by simp), if_neg (by simp [hen1])]
  simp only [hfind]
  split
  · split
    · exact ⟨rfl, rfl⟩
    · exact ⟨rfl, rfl⟩
  · exact ⟨rfl, rfl⟩

/-- C9: with the heap layer enabled and no re-entry, `record_alloc(p, s)`
followed by `record_free(p)` returns the global live-bytes counter to its
value before the pair and removes `p` from its shard; and every
`record_alloc` call either leaves the state untouched (null pointer,
re-entry, disabled) or accounts the allocation fully — live-bytes
incremented by the size and the entry present in `p`'s shard with that
size — never partially. -/
theorem heap_alloc_free_roundtrip (st : HeapState) (p size : Nat) (u : ℚ)
    (cap : Option (Nat × String)) (now : Nat)
    (hen : st.enabled = true) (hp : p ≠ 0) (hlen : st.shards.length = 64)
    (hlb : st.live_bytes < W64) (hsz : size < W64) :
    ((record_free (record_alloc st p size false false u cap now) p false
        false).live_bytes = st.live_bytes ∧
      mapFind ((record_free (record_alloc st p size false false u cap now) p
          false false).shards.getD (p % 64) []) p = none) ∧
    (∀ (in_tracer in_hook : Bool) (st0 : HeapState), st0.shards.length = 64 →
      record_alloc st0 p size in_tracer in_hook u cap now = st0 ∨
      ((record_alloc st0 p size in_tracer in_hook u cap now).live_bytes =
          (st0.live_bytes + size) % W64 ∧
        ∃ h ts : Nat,
          mapFind ((record_alloc st0 p size in_tracer in_hook u cap
              now).shards.getD (p % 64) []) p = some ⟨size, h, ts⟩)) := by
  constructor
  · obtain ⟨hben, hblive, hblen, h, hbsh⟩ :=
      record_alloc_fields st p size u cap now hen hp
    set st1 := record_alloc st p size false false u cap now with hst1
    have hmod : p % 64 < 64 := Nat.mod_lt _ (by omega)
    have hshard : st1.shards.getD (p % 64) [] =
        mapSet (st.shards.getD (p % 64) []) p ⟨size, h, now⟩ := by
      rw [hbsh]
      exact getD_set_self _ _ (by omega) _ []
    have hfind : mapFind (st1.shards.getD (p % 64) []) p =
        some ⟨size, h, now⟩ := by
      rw [hshard]
      exact mapFind_mapSet_self p _ _
    obtain ⟨hflive, hfsh⟩ := record_free_found st1 p ⟨size, h, now⟩
      (hben.trans hen) hp hfind
    constructor
    · rw [hflive, hblive]
      exact add_sub64_cancel st.live_bytes size hlb hsz
    · rw [hfsh]
      rw [getD_set_self _ _ (by omega) _ []]
      exact mapFind_mapErase_self p _
  · intro in_tracer in_hook st0 hlen0
    by_cases h1 : p = 0
    · exact absurd h1 hp
    cases in_tracer with
    | true =>
      exact Or.inl (by rw [record_alloc.eq_def, if_neg h1]; rfl)
    | false =>
      cases in_hook with
      | true =>
        exact Or.inl (by
          rw [record_alloc.eq_def, if_neg h1, if_neg (by simp)]; rfl)
      | false =>
        cases hen0 : st0.enabled with
        | false =>
          refine Or.inl ?_
          rw [record_alloc.eq_def, if_neg h1, if_neg (by simp),
            if_neg (by simp), if_pos (by simp [hen0])]
        | true =>
          refine Or.inr ?_
          obtain ⟨_, hblive, hblen, h, hbsh⟩ :=
            record_alloc_fields st0 p size u cap now hen0 h1
          refine ⟨hblive, h, now, ?_⟩
          rw [hbsh, getD_set_self _ _ ?_ _ []]
          · exact mapFind_mapSet_self p _ _
          · rw [hlen0]
            exact Nat.mod_lt _ (by omega)

/-- Witness for C9: a concrete alloc/free pair on the initial heap state
returns live-bytes to zero and leaves pointer 5 absent from its shard. -/
theorem heap_alloc_free_roundtrip_witness :
    (heapInit true 0).enabled = true ∧
    (record_free (record_alloc (heapInit true 0) 5 100 false false 0 none 7)
        5 false false).live_bytes = (heapInit true 0).live_bytes ∧
    mapFind ((record_free (record_alloc (heapInit true 0) 5 100 false false 0
        none 7) 5 false false).shards.getD (5 % 64) []) 5 = none := by
  have h := heap_alloc_free_roundtrip (heapInit true 0) 5 100 0 none 7
    rfl (by decide) (by decide) (by decide) (by decide)
  exact ⟨rfl, h.1.1, h.1.2⟩

theorem ne_nil_iff_exists_mem {β : Type} (l : List β) :
    l ≠ [] ↔ ∃ x, x ∈ l := by
  cases l <;> simp

theorem mem_insertLeB {β : Type} (le : β → β → Bool) (x z : β) :
    ∀ l, z ∈ insertLeB le x l ↔ z = x ∨ z ∈ l := by
  intro l
  induction l with
  | nil => simp [insertLeB]
  | cons y ys ih =>
    by_cases h : le y x
    · simp only [insertLeB, if_pos h, List.mem_cons, ih]
      tauto
    · simp only [insertLeB, if_neg h, List.mem_cons]

theorem insertLeB_perm {β : Type} (le : β → β → Bool) (x : β) :
    ∀ l, (insertLeB le x l).Perm (x :: l) := by
  intro l
  induction l with
  | nil => simp [insertLeB]
  | cons y ys ih =>
    by_cases h : le y x
    · rw [insertLeB, if_pos h]
      exact (ih.cons y).trans (List.Perm.swap x y ys)
    · rw [insertLeB, if_neg h]

theorem sortLeB_perm {β : Type} (le : β → β → Bool) :
    ∀ l : List β, (sortLeB le l).Perm l := by
  intro l
  induction l with
  | nil => simp [sortLeB]
  | cons x xs ih =>
    exact (insertLeB_perm le x (sortLeB le xs)).trans (ih.cons x)

theorem mem_sortStrings (l : List String) (x : String) :
    x ∈ sortStrings l ↔ x ∈ l :=
  (sortLeB_perm _ l).mem_iff

theorem sortStrings_nodup (l : List String) (h : l.Nodup) :
    (sortStrings l).Nodup :=
  ((sortLeB_perm _ l).nodup_iff).mpr h

theorem filter_false_nil {β : Type} (q : β → Bool) :
    ∀ l : List β, (∀ x ∈ l, q x = false) → l.filter q = [] := by
  intro l
  induction l with
  | nil => intro _; rfl
  | cons b t ih =>
    intro h
    rw [List.filter_cons, h b (by simp)]
    exact ih (fun x hx => h x (by simp [hx]))

theorem filter_eq_single {β : Type} (q : β → Bool) (a : β) :
    ∀ l : List β, (∀ x ∈ l, q x = true ↔ x = a) → l.Nodup → a ∈ l →
      (l.filter q).length = 1 := by
  intro l
  induction l with
  | nil => intro _ _ ha; simp at ha
  | cons b t ih =>
    intro hq hnd hb
    rw [List.filter_cons]
    by_cases hba : b = a
    · subst hba
      rw [if_pos ((hq b (by simp)).mpr rfl)]
      have hnotin : b ∉ t := (List.nodup_cons.mp hnd).1
      have hnil : t.filter q = [] := by
        apply filter_false_nil
        intro x hx
        by_cases hqx : q x = true
        · exact absurd ((hq x (by simp [hx])).mp hqx ▸ hx) hnotin
        · simpa using hqx
      simp [hnil]
    · have hqb : q b = false := by
        by_cases hqx : q b = true
        · exact absurd ((hq b (by simp)).mp hqx) hba
        · simpa using hqx
      rw [hqb]
      simp only [Bool.false_eq_true, if_false]
      have hat : a ∈ t := by
        rcases List.mem_cons.mp hb with h | h
        · exact absurd h.symm hba
        · exact h
      exact ih (fun x hx => hq x (by simp [hx])) (List.nodup_cons.mp hnd).2 hat

theorem fpsStep_fold_phase (fts : List Nat) (W pid : Nat) :
    ∀ (idxs : List Nat) (st : Nat × List CleanEvent),
      (∀ e ∈ st.2, e.ph = Phase.C) →
      ∀ e ∈ (idxs.foldl (fpsStep fts W pid) st).2, e.ph = Phase.C := by
  intro idxs
  induction idxs with
  | nil => intro st h; exact h
  | cons i rest ih =>
    intro st h
    rw [List.foldl_cons]
    apply ih
    intro e he
    rw [fpsStep] at he
    simp only [List.mem_append, List.mem_singleton] at he
    rcases he with he | he
    · exact h e he
    · subst he; rfl

theorem fpsEvents_phase (inp : List CleanEvent) (cfg : SynthCfg) (pid : Nat) :
    ∀ e ∈ fpsEvents inp cfg pid, e.ph = Phase.C := by
  intro e he
  rw [fpsEvents] at he
  split at he
  · simp at he
  · exact fpsStep_fold_phase _ _ pid _ (0, []) (by simp) e he

theorem rateEvents_phase (inp : List CleanEvent) (pid : Nat) :
    ∀ e ∈ rateEvents inp pid, e.ph = Phase.C := by
  intro e he
  rw [rateEvents] at he
  rw [List.mem_flatMap] at he
  obtain ⟨k, _, he⟩ := he
  rw [rateForSeries] at he
  split at he
  · simp at he
  · rw [List.mem_filterMap] at he
    obtain ⟨i0, _, he⟩ := he
    dsimp only at he
    split at he
    · simp at he
    · simp only [Option.some.injEq] at he
      subst he
      rfl

theorem mem_completeNames (inp : List CleanEvent) (name : String) :
    name ∈ completeNames inp ↔ completeDurs inp name ≠ [] := by
  rw [completeNames, List.mem_dedup, List.mem_filterMap,
    ne_nil_iff_exists_mem]
  constructor
  · intro ⟨e, he, hcond⟩
    split at hcond
    · rename_i hc
      simp only [Option.some.injEq] at hcond
      refine ⟨(e.dur_us : ℚ), ?_⟩
      rw [completeDurs, List.mem_filterMap]
      refine ⟨e, he, ?_⟩
      rw [if_pos ⟨hc.1, hc.2, hcond⟩]
    · simp at hcond
  · intro ⟨q, hq⟩
    rw [completeDurs, List.mem_filterMap] at hq
    obtain ⟨e, he, hcond⟩ := hq
    split at hcond
    · rename_i hc
      refine ⟨e, he, ?_⟩
      rw [if_pos ⟨hc.1, hc.2.1⟩]
      rw [hc.2.2]
    · simp at hcond

/-- C8 (amended): with synthesis enabled, for each Complete event name with
at least one recorded duration, the flush synthesizes exactly one Instant
named `latency(<name>)` (provided no other Complete name's truncated label
collides with it), at the maximum timestamp in the trace, with category
"synth" and tid 0, carrying one numeric argument per configured percentile
`q` up to the `OTRACE_MAX_ARGS` capacity (4): percentiles beyond the
capacity are silently dropped.  Each argument's value is the duration at
sorted-ascending index `floor(q * (n-1))`, converted to milliseconds. -/
theorem synth_latency_percentiles (inp : List CleanEvent) (cfg : SynthCfg)
    (pid : Nat) (name : String)
    (hdur : completeDurs inp name ≠ [])
    (hinj : ∀ n2 ∈ completeNames inp, latLabel n2 = latLabel name →
      n2 = name) :
    ((synthesize_tracks inp cfg pid).filter
        (fun e => decide (e.ph = Phase.I ∧ e.name = latLabel name))).length
      = 1 ∧
    ∀ e ∈ synthesize_tracks inp cfg pid,
      e.ph = Phase.I → e.name = latLabel name →
        e.ts_us = lastTs inp ∧ e.cat = "synth" ∧ e.tid = 0 ∧
        e.args = (cfg.pcts.take MAX_ARGS).map (fun pr =>
          (truncStr 31 pr.1,
           ArgVal.number ((sortedDurs inp name).getD
             (pctIndex pr.2 (sortedDurs inp name).length) 0 / 1000))) := by
  have hmem : name ∈ completeNames inp := (mem_completeNames inp name).mpr hdur
  have hmemS : name ∈ sortStrings (completeNames inp) :=
    (mem_sortStrings _ name).mpr hmem
  have hndS : (sortStrings (completeNames inp)).Nodup :=
    sortStrings_nodup _ (List.nodup_dedup _)
  constructor
  · rw [synthesize_tracks, List.filter_append, List.filter_append,
      List.length_append, List.length_append]
    have h1 : (fpsEvents inp cfg pid).filter
        (fun e => decide (e.ph = Phase.I ∧ e.name = latLabel name)) = [] := by
      apply filter_false_nil
      intro e he
      have := fpsEvents_phase inp cfg pid e he
      simp [this]
    have h2 : (rateEvents inp pid).filter
        (fun e => decide (e.ph = Phase.I ∧ e.name = latLabel name)) = [] := by
      apply filter_false_nil
      intro e he
      have := rateEvents_phase inp pid e he
      simp [this]
    rw [h1, h2]
    simp only [List.length_nil, Nat.zero_add]
    rw [latencyEvents, List.filter_map]
    rw [List.length_map]
    apply filter_eq_single _ name _ ?_ hndS hmemS
    intro k hk
    simp only [Function.comp]
    constructor
    · intro ht
      have hlab : latLabel k = latLabel name := by
        have := of_decide_eq_true ht
        exact this.2
      exact hinj k ((mem_sortStrings _ k).mp hk) hlab
    · intro hka
      subst hka
      exact decide_eq_true ⟨rfl, rfl⟩
  · intro e he hphI hname
    rw [synthesize_tracks] at he
    simp only [List.mem_append] at he
    rcases he with (he | he) | he
    · exact absurd (fpsEvents_phase inp cfg pid e he) (by simp [hphI])
    · exact absurd (rateEvents_phase inp pid e he) (by simp [hphI])
    · rw [latencyEvents, List.mem_map] at he
      obtain ⟨k, hk, hke⟩ := he
      have hlab : latLabel k = latLabel name := by
        rw [← hke] at hname
        exact hname
      have hkn : k = name := hinj k ((mem_sortStrings _ k).mp hk) hlab
      subst hkn
      subst hke
      refine ⟨rfl, ?_, rfl, rfl⟩
      show truncStr 31 "synth" = "synth"
      decide

/-- Witness for C8 (amended): with one Complete event named "job" and one
configured percentile, exactly one latency instant is synthesized. -/
theorem synth_latency_percentiles_witness :
    completeDurs [jobEv] "job" ≠ [] ∧
    ((synthesize_tracks [jobEv] ⟨500000, [("p50", 1/2)]⟩ 1).filter
        (fun e => decide (e.ph = Phase.I ∧ e.name = latLabel "job"))).length
      = 1 := by
  have h1 : completeDurs [jobEv] "job" ≠ [] := by decide
  refine ⟨h1, ?_⟩
  exact (synth_latency_percentiles [jobEv] ⟨500000, [("p50", 1/2)]⟩ 1 "job"
    h1 (by decide)).1

/-- C8 counterexample: with five configured percentiles (a configuration
the registry's percentile parser accepts — it holds up to eight), the
latency instant synthesized for a Complete name carries only 4 numeric
arguments, not one per configured percentile: the argument loop stops at
`OTRACE_MAX_ARGS`. -/
theorem synth_pct_args_capped_cex :
    cfg5.pcts.length = 5 ∧
    ((synthesize_tracks [jobEv] cfg5 1).filter
        (fun e => decide (e.ph = Phase.I))).map (fun e => e.args.length) =
      [4] := by
  constructor
  · decide
  · decide

end otrace
